import Mathlib

/-!
Verification development for the acorn AST walker (src/walk/index.js) and the
parser node lifecycle (startNode / startNodeAt / finishNode / finishNodeAt).

Trees are embedded as the inductive JNode: a type tag, start and end offsets,
and a list of named fields, where a field holds a single child node, an array
of children (possibly with holes, as in ArrayExpression elements), or a
boolean flag (such as computed or expression).  A walker table entry is
embedded by its only observable behaviour: the ordered list of continuation
calls c(child, st, override) it makes, or none when the JavaScript entry
would crash (missing required field, unknown node type).  State threading is
dropped from table entries because every entry of the source table passes st
through unchanged.  Recursion through the tree is fuel-indexed: a run returns
none when the fuel is exhausted or the JavaScript would crash, and some r
when the traversal completes with result r.
-/

namespace Acorn

mutual
inductive JNode : Type where
  | mk (type : String) (start : Int) (stop : Int) (fields : List (String × JField))
inductive JField : Type where
  | val (n : JNode)
  | arr (elems : List (Option JNode))
  | flag (b : Bool)
end

def JNode.type : JNode → String | .mk t _ _ _ => t
def JNode.start : JNode → Int | .mk _ s _ _ => s
def JNode.end_ : JNode → Int | .mk _ _ e _ => e
def JNode.fields : JNode → List (String × JField) | .mk _ _ _ fs => fs

mutual
def JNode.beq : JNode → JNode → Bool
  | .mk t1 s1 e1 f1, .mk t2 s2 e2 f2 => t1 == t2 && s1 == s2 && e1 == e2 && beqFields f1 f2
def beqFields : List (String × JField) → List (String × JField) → Bool
  | [], [] => true
  | (n1, f1) :: r1, (n2, f2) :: r2 => n1 == n2 && JField.beq f1 f2 && beqFields r1 r2
  | _, _ => false
def JField.beq : JField → JField → Bool
  | .val a, .val b => JNode.beq a b
  | .arr a, .arr b => beqElems a b
  | .flag a, .flag b => a == b
  | _, _ => false
def beqElems : List (Option JNode) → List (Option JNode) → Bool
  | [], [] => true
  | none :: r1, none :: r2 => beqElems r1 r2
  | some a :: r1, some b :: r2 => JNode.beq a b && beqElems r1 r2
  | _, _ => false
end

mutual
theorem jnode_beq_iff : ∀ a b : JNode, JNode.beq a b = true ↔ a = b
  | .mk t1 s1 e1 f1, .mk t2 s2 e2 f2 => by
    rw [JNode.beq]
    simp only [Bool.and_eq_true, beq_iff_eq, JNode.mk.injEq]
    rw [beqFields_iff f1 f2]
    tauto
theorem beqFields_iff : ∀ a b : List (String × JField), beqFields a b = true ↔ a = b
  | [], [] => by simp [beqFields]
  | [], (_, _) :: _ => by simp [beqFields]
  | (_, _) :: _, [] => by simp [beqFields]
  | (n1, f1) :: r1, (n2, f2) :: r2 => by
    rw [beqFields]
    simp only [Bool.and_eq_true, beq_iff_eq, List.cons.injEq, Prod.mk.injEq]
    rw [jfield_beq_iff f1 f2, beqFields_iff r1 r2]
theorem jfield_beq_iff : ∀ a b : JField, JField.beq a b = true ↔ a = b
  | .val a, .val b => by rw [JField.beq, jnode_beq_iff a b]; simp
  | .val _, .arr _ => by simp [JField.beq]
  | .val _, .flag _ => by simp [JField.beq]
  | .arr a, .arr b => by rw [JField.beq, beqElems_iff a b]; simp
  | .arr _, .val _ => by simp [JField.beq]
  | .arr _, .flag _ => by simp [JField.beq]
  | .flag a, .flag b => by rw [JField.beq]; simp
  | .flag _, .val _ => by simp [JField.beq]
  | .flag _, .arr _ => by simp [JField.beq]
theorem beqElems_iff : ∀ a b : List (Option JNode), beqElems a b = true ↔ a = b
  | [], [] => by simp [beqElems]
  | [], none :: _ => by simp [beqElems]
  | [], some _ :: _ => by simp [beqElems]
  | none :: _, [] => by simp [beqElems]
  | some _ :: _, [] => by simp [beqElems]
  | none :: r1, none :: r2 => by
    rw [beqElems, beqElems_iff r1 r2]; simp
  | none :: _, some _ :: _ => by simp [beqElems]
  | some _ :: _, none :: _ => by simp [beqElems]
  | some a :: r1, some b :: r2 => by
    rw [beqElems]
    simp only [Bool.and_eq_true, List.cons.injEq, Option.some.injEq]
    rw [jnode_beq_iff a b, beqElems_iff r1 r2]
end

instance : DecidableEq JNode := fun a b =>
  decidable_of_iff (JNode.beq a b = true) (jnode_beq_iff a b)

instance : DecidableEq JField := fun a b =>
  decidable_of_iff (JField.beq a b = true) (jfield_beq_iff a b)

/-- The effective dispatch type of a frame: override || node.type. -/
def effType (ov : Option String) (n : JNode) : String :=
  match ov with
  | none => n.type
  | some t => if t = "" then n.type else t

/-- A walker table, as seen by the traversals: base[type](node, st, c) is
embedded as the list of (child, override) arguments the entry passes to c, in
call order; none embeds a crash (unknown type or missing required field). -/
abbrev BaseT := String → JNode → Option (List (JNode × Option String))

def JNode.getField (n : JNode) (name : String) : Option JField :=
  (n.fields.find? (fun p => p.1 = name)).map (fun p => p.2)

/-- JavaScript truthiness of a field access node.f: absent and false are
falsy; nodes and arrays (even empty ones) are truthy. -/
def JNode.truthyField (n : JNode) (name : String) : Bool :=
  match n.getField name with
  | none => false
  | some (.flag b) => b
  | some _ => true

/-- Embeds c(node.f, st, ov) on a required single-node field: the JavaScript
crashes when the field is absent or not a node. -/
def reqChild (n : JNode) (name : String) (ov : Option String) :
    Option (List (JNode × Option String)) :=
  match n.getField name with
  | some (.val c) => some [(c, ov)]
  | _ => none

/-- Embeds if (node.f) c(node.f, st, ov): a falsy field is skipped, a truthy
non-node field crashes in the continuation. -/
def optChild (n : JNode) (name : String) (ov : Option String) :
    Option (List (JNode × Option String)) :=
  match n.getField name with
  | none => some []
  | some (.val c) => some [(c, ov)]
  | some (.flag false) => some []
  | some _ => none

/-- Embeds for (let x of node.f) c(x, st, ov): the field must be an array and
a hole (null element) crashes in the continuation. -/
def eachChild (n : JNode) (name : String) (ov : Option String) :
    Option (List (JNode × Option String)) :=
  match n.getField name with
  | some (.arr xs) => xs.mapM (fun o => o.map (fun c => (c, ov)))
  | _ => none

/-- Embeds for (let x of node.f) if (x) c(x, st, ov): holes are skipped. -/
def eachChildOpt (n : JNode) (name : String) (ov : Option String) :
    Option (List (JNode × Option String)) :=
  match n.getField name with
  | some (.arr xs) => some (xs.filterMap (fun o => o.map (fun c => (c, ov))))
  | _ => none

/-- Embeds for (let prop of node.f) c(prop.value, st, ov) (ObjectPattern). -/
def eachPropValue (n : JNode) (name : String) (ov : Option String) :
    Option (List (JNode × Option String)) :=
  match n.getField name with
  | some (.arr xs) => xs.mapM (fun o => do
      let p ← o
      match p.getField "value" with
      | some (.val v) => some (v, ov)
      | _ => none)
  | _ => none

def moduleDeclarationTypes : List String :=
  ["ImportDeclaration", "ExportNamedDeclaration", "ExportDefaultDeclaration",
   "ExportAllDeclaration"]

def declarationTypes : List String :=
  ["VariableDeclaration", "FunctionDeclaration", "ClassDeclaration"]

/-- The default walker table of src/walk/index.js (exports.base), entry by
entry.  skipThrough is [(n, none)], ignore is []. -/
def base : BaseT := fun ty n =>
  match ty with
  | "Program" =>
    match n.getField "body" with
    | some (.arr xs) => xs.mapM (fun o => o.map (fun c =>
        (c, if moduleDeclarationTypes.contains c.type
            then some "ModuleDeclaration" else some "Statement")))
    | _ => none
  | "BlockStatement" => eachChild n "body" (some "Statement")
  | "Statement" =>
    some [(n, if declarationTypes.contains n.type then some "Declaration" else none)]
  | "EmptyStatement" => some []
  | "ExpressionStatement" => reqChild n "expression" (some "Expression")
  | "ParenthesizedExpression" => reqChild n "expression" (some "Expression")
  | "IfStatement" => do
    let a ← reqChild n "test" (some "Expression")
    let b ← reqChild n "consequent" (some "Statement")
    let c ← optChild n "alternate" (some "Statement")
    pure (a ++ b ++ c)
  | "LabeledStatement" => reqChild n "body" (some "Statement")
  | "BreakStatement" => some []
  | "ContinueStatement" => some []
  | "WithStatement" => do
    let a ← reqChild n "object" (some "Expression")
    let b ← reqChild n "body" (some "Statement")
    pure (a ++ b)
  | "SwitchStatement" => do
    let a ← reqChild n "discriminant" (some "Expression")
    let b ← eachChild n "cases" (some "SwitchCase")
    pure (a ++ b)
  | "SwitchCase" => do
    let a ← optChild n "test" (some "Expression")
    let b ← eachChild n "consequent" (some "Statement")
    pure (a ++ b)
  | "ReturnStatement" => optChild n "argument" (some "Expression")
  | "YieldExpression" => optChild n "argument" (some "Expression")
  | "AwaitExpression" => optChild n "argument" (some "Expression")
  | "ThrowStatement" => reqChild n "argument" (some "Expression")
  | "SpreadElement" => reqChild n "argument" (some "Expression")
  | "TryStatement" => do
    let a ← reqChild n "block" (some "Statement")
    let b ← optChild n "handler" none
    let c ← optChild n "finalizer" (some "Statement")
    pure (a ++ b ++ c)
  | "CatchClause" => do
    let a ← reqChild n "param" (some "Pattern")
    let b ← reqChild n "body" (some "ScopeBody")
    pure (a ++ b)
  | "WhileStatement" => do
    let a ← reqChild n "test" (some "Expression")
    let b ← reqChild n "body" (some "Statement")
    pure (a ++ b)
  | "DoWhileStatement" => do
    let a ← reqChild n "test" (some "Expression")
    let b ← reqChild n "body" (some "Statement")
    pure (a ++ b)
  | "ForStatement" => do
    let a ← optChild n "init" (some "ForInit")
    let b ← optChild n "test" (some "Expression")
    let c ← optChild n "update" (some "Expression")
    let d ← reqChild n "body" (some "Statement")
    pure (a ++ b ++ c ++ d)
  | "ForInStatement" => do
    let a ← reqChild n "left" (some "ForInit")
    let b ← reqChild n "right" (some "Expression")
    let c ← reqChild n "body" (some "Statement")
    pure (a ++ b ++ c)
  | "ForOfStatement" => do
    let a ← reqChild n "left" (some "ForInit")
    let b ← reqChild n "right" (some "Expression")
    let c ← reqChild n "body" (some "Statement")
    pure (a ++ b ++ c)
  | "ForInit" =>
    some [if n.type = "VariableDeclaration" then (n, none) else (n, some "Expression")]
  | "DebuggerStatement" => some []
  | "Declaration" => some [(n, none)]
  | "FunctionDeclaration" => some [(n, some "Function")]
  | "VariableDeclaration" => eachChild n "declarations" none
  | "VariableDeclarator" => do
    let a ← reqChild n "id" (some "Pattern")
    let b ← optChild n "init" (some "Expression")
    pure (a ++ b)
  | "Function" => do
    let a ← optChild n "id" (some "Pattern")
    let b ← eachChild n "params" (some "Pattern")
    let c ← reqChild n "body"
      (if n.truthyField "expression" then some "ScopeExpression" else some "ScopeBody")
    pure (a ++ b ++ c)
  | "ScopeBody" => some [(n, some "Statement")]
  | "ScopeExpression" => some [(n, some "Expression")]
  | "Pattern" =>
    if n.type = "Identifier" ∨ n.type = "MemberExpression"
    then some [(n, some "Expression")]
    else some [(n, none)]
  | "RestElement" => reqChild n "argument" (some "Pattern")
  | "ArrayPattern" => eachChildOpt n "elements" (some "Pattern")
  | "ObjectPattern" => eachPropValue n "properties" (some "Pattern")
  | "Expression" => some [(n, none)]
  | "ThisExpression" => some []
  | "Super" => some []
  | "MetaProperty" => some []
  | "ArrayExpression" => eachChildOpt n "elements" (some "Expression")
  | "ObjectExpression" => eachChild n "properties" none
  | "FunctionExpression" => some [(n, some "Function")]
  | "ArrowFunctionExpression" => some [(n, some "Function")]
  | "TemplateLiteral" => do
    let a ← eachChild n "quasis" none
    let b ← eachChild n "expressions" (some "Expression")
    pure (a ++ b)
  | "TemplateElement" => some []
  | "SequenceExpression" => eachChild n "expressions" (some "Expression")
  | "UnaryExpression" => reqChild n "argument" (some "Expression")
  | "UpdateExpression" => reqChild n "argument" (some "Expression")
  | "BinaryExpression" => do
    let a ← reqChild n "left" (some "Expression")
    let b ← reqChild n "right" (some "Expression")
    pure (a ++ b)
  | "LogicalExpression" => do
    let a ← reqChild n "left" (some "Expression")
    let b ← reqChild n "right" (some "Expression")
    pure (a ++ b)
  | "AssignmentExpression" => do
    let a ← reqChild n "left" (some "Pattern")
    let b ← reqChild n "right" (some "Expression")
    pure (a ++ b)
  | "AssignmentPattern" => do
    let a ← reqChild n "left" (some "Pattern")
    let b ← reqChild n "right" (some "Expression")
    pure (a ++ b)
  | "ConditionalExpression" => do
    let a ← reqChild n "test" (some "Expression")
    let b ← reqChild n "consequent" (some "Expression")
    let c ← reqChild n "alternate" (some "Expression")
    pure (a ++ b ++ c)
  | "NewExpression" => do
    let a ← reqChild n "callee" (some "Expression")
    let b ← (match n.getField "arguments" with
      | none => some []
      | some (.flag false) => some []
      | some (.arr xs) => xs.mapM (fun o => o.map (fun c => (c, some "Expression")))
      | some _ => none)
    pure (a ++ b)
  | "CallExpression" => do
    let a ← reqChild n "callee" (some "Expression")
    let b ← (match n.getField "arguments" with
      | none => some []
      | some (.flag false) => some []
      | some (.arr xs) => xs.mapM (fun o => o.map (fun c => (c, some "Expression")))
      | some _ => none)
    pure (a ++ b)
  | "MemberExpression" => do
    let a ← reqChild n "object" (some "Expression")
    let b ← (if n.truthyField "computed"
             then reqChild n "property" (some "Expression") else some [])
    pure (a ++ b)
  | "ModuleDeclaration" => some [(n, none)]
  | "ExportDefaultDeclaration" =>
    match n.getField "declaration" with
    | some (.val d) =>
      some [(d, if declarationTypes.contains d.type
                then some "Declaration" else some "Expression")]
    | _ => none
  | "ExportNamedDeclaration" => do
    let a ← optChild n "declaration" (some "Declaration")
    let b ← eachChild n "specifiers" (some "ModuleSpecifier")
    let c ← optChild n "source" (some "Expression")
    pure (a ++ b ++ c)
  | "ExportAllDeclaration" => reqChild n "source" (some "Expression")
  | "ImportDeclaration" => do
    let a ← eachChild n "specifiers" (some "ModuleSpecifier")
    let b ← reqChild n "source" (some "Expression")
    pure (a ++ b)
  | "ModuleSpecifier" => some [(n, none)]
  | "ImportSpecifier" => some []
  | "ImportDefaultSpecifier" => some []
  | "ImportNamespaceSpecifier" => some []
  | "ExportSpecifier" => some []
  | "Identifier" => some []
  | "Literal" => some []
  | "TaggedTemplateExpression" => do
    let a ← reqChild n "tag" (some "Expression")
    let b ← reqChild n "quasi" none
    pure (a ++ b)
  | "ClassDeclaration" => some [(n, some "Class")]
  | "ClassExpression" => some [(n, some "Class")]
  | "Class" => do
    let a ← optChild n "id" (some "Pattern")
    let b ← optChild n "superClass" (some "Expression")
    let c ← reqChild n "body" (some "ClassBody")
    pure (a ++ b ++ c)
  | "ClassBody" => eachChild n "body" none
  | "MethodDefinition" => do
    let a ← (if n.truthyField "computed"
             then reqChild n "key" (some "Expression") else some [])
    let b ← reqChild n "value" (some "Expression")
    pure (a ++ b)
  | "Property" => do
    let a ← (if n.truthyField "computed"
             then reqChild n "key" (some "Expression") else some [])
    let b ← reqChild n "value" (some "Expression")
    pure (a ++ b)
  | _ => none

/-- The test argument of the find family: a string, absent (null/undefined),
or a predicate function. -/
inductive TestArg : Type where
  | str (s : String)
  | noTest
  | fn (f : String → JNode → Bool)

/-- makeTest of src/walk/index.js. -/
def makeTest : TestArg → (String → JNode → Bool)
  | .str s => fun ty _ => ty == s
  | .noTest => fun _ _ => true
  | .fn f => f

/-! Traversal primitives.  Each primitive is fuel-indexed; the caller-chosen
table B stands for the base argument (the source substitutes exports.base for
a missing one).  A result none means the fuel ran out or the JavaScript
crashed; some r is a completed run. -/

/-- Runs rec on each (child, override) call in order, concatenating the
produced event lists (the pattern shared by simple, ancestor and the frame
enumerations, which have no early exit). -/
def kidsConcat {E : Type} (rec : JNode → Option String → Option (List E)) :
    List (JNode × Option String) → Option (List E)
  | [] => some []
  | (c, o) :: rest =>
    match rec c o with
    | none => none
    | some evs =>
      match kidsConcat rec rest with
      | none => none
      | some rs => some (evs ++ rs)

/-- Runs rec on each (child, override) call in order with early exit: the
first child run that reports a found node stops the remaining children from
running (the thrown Found sentinel of the source). -/
def kidsSearch (rec : JNode → Option String → Option (Option JNode)) :
    List (JNode × Option String) → Option (Option JNode)
  | [] => some none
  | (c, o) :: rest =>
    match rec c o with
    | none => none
    | some (some f) => some (some f)
    | some none => kidsSearch rec rest

/-- Threads the running best match through the child runs in order
(findNodeBefore's shared max variable). -/
def kidsFold (rec : Option JNode → JNode → Option String → Option (Option JNode)) :
    Option JNode → List (JNode × Option String) → Option (Option JNode)
  | mx, [] => some mx
  | mx, (c, o) :: rest =>
    match rec mx c o with
    | none => none
    | some mx1 => kidsFold rec mx1 rest

/-- simple(node, visitors, base, state, override): the inner c of the source,
returning the list of visitor invocations (node, effective type) in
invocation order.  vis ty says whether visitors has an entry for ty. -/
def simple (B : BaseT) (vis : String → Bool) :
    Nat → JNode → Option String → Option (List (JNode × String))
  | 0, _, _ => none
  | fuel+1, node, ov =>
    let ty := effType ov node
    match B ty node with
    | none => none
    | some calls =>
      match kidsConcat (simple B vis fuel) calls with
      | none => none
      | some evs => some (evs ++ if vis ty then [(node, ty)] else [])

/-- An ancestor-walk visitor invocation: the visited node, its effective
dispatch type, the contents of the ancestors array at the moment of the
call, and the effective state argument st or ancestors (the source passes
ancestors when st is absent). -/
structure AncEvent (α : Type) : Type where
  node : JNode
  etype : String
  ancestors : List JNode
  eff : Sum α (List JNode)

/-- The st || ancestors argument the ancestor walk passes to a visitor: the
supplied state when there is one, the ancestors array when not. -/
def effState {α : Type} (st : Option α) (anc : List JNode) : Sum α (List JNode) :=
  match st with
  | some a => Sum.inl a
  | none => Sum.inr anc

/-- ancestor(node, visitors, base, state): the inner c of the source.  The
ancestors array is threaded as a parameter: the push happens when the node
differs from the current top of the array, the descent and the visitor see
the pushed array, and the matching pop restores it on return. -/
def ancestor {α : Type} (B : BaseT) (vis : String → Bool) (st : Option α) :
    Nat → JNode → Option String → List JNode → Option (List (AncEvent α))
  | 0, _, _, _ => none
  | fuel+1, node, ov, ancestors =>
    let ty := effType ov node
    let anc1 := if ancestors.getLast? = some node then ancestors else ancestors ++ [node]
    match B ty node with
    | none => none
    | some calls =>
      match kidsConcat (fun c o => ancestor B vis st fuel c o anc1) calls with
      | none => none
      | some evs =>
        some (evs ++ if vis ty then [⟨node, ty, anc1, effState st anc1⟩] else [])

/-- Evaluates a nullable bound: null is a wildcard. -/
def nullOr (b : Option Int) (p : Int → Bool) : Bool :=
  match b with
  | none => true
  | some v => p v

/-- findNodeAt's inner c.  Descent is guarded by the covering condition, the
node itself is tested afterwards in every case; a successful test is the
thrown Found sentinel, surfaced as some (some node). -/
def findNodeAt (B : BaseT) (start stop : Option Int) (test : String → JNode → Bool) :
    Nat → JNode → Option String → Option (Option JNode)
  | 0, _, _ => none
  | fuel+1, node, ov =>
    let ty := effType ov node
    match (if nullOr start (fun s => decide (node.start ≤ s)) &&
              nullOr stop (fun e => decide (node.end_ ≥ e)) then
             match B ty node with
             | none => none
             | some calls => kidsSearch (findNodeAt B start stop test fuel) calls
           else some none) with
    | none => none
    | some (some f) => some (some f)
    | some none =>
      some (if nullOr start (fun s => node.start == s) &&
               nullOr stop (fun e => node.end_ == e) &&
               test ty node
            then some node else none)

/-- findNodeAround's inner c: subtrees not containing pos are skipped before
anything else, the node itself is tested only after the descent returns. -/
def findNodeAround (B : BaseT) (pos : Int) (test : String → JNode → Bool) :
    Nat → JNode → Option String → Option (Option JNode)
  | 0, _, _ => none
  | fuel+1, node, ov =>
    if node.start > pos ∨ node.end_ < pos then some none
    else
      let ty := effType ov node
      match B ty node with
      | none => none
      | some calls =>
        match kidsSearch (findNodeAround B pos test fuel) calls with
        | none => none
        | some (some f) => some (some f)
        | some none => some (if test ty node then some node else none)

/-- findNodeAfter's inner c: subtrees ending before pos are skipped, the node
itself is tested before the descent. -/
def findNodeAfter (B : BaseT) (pos : Int) (test : String → JNode → Bool) :
    Nat → JNode → Option String → Option (Option JNode)
  | 0, _, _ => none
  | fuel+1, node, ov =>
    if node.end_ < pos then some none
    else
      let ty := effType ov node
      if decide (node.start ≥ pos) && test ty node then some (some node)
      else
        match B ty node with
        | none => none
        | some calls => kidsSearch (findNodeAfter B pos test fuel) calls

/-- The qualification test of findNodeBefore: node.end <= pos and the type
test passes. -/
def beforeQual (pos : Int) (test : String → JNode → Bool) (f : JNode × String) : Bool :=
  decide (f.1.end_ ≤ pos) && test f.2 f.1

/-- The max update of findNodeBefore: replace the running best only when the
candidate qualifies and ends strictly later than the current best. -/
def beforeUpd (pos : Int) (test : String → JNode → Bool) (mx : Option JNode)
    (f : JNode × String) : Option JNode :=
  if beforeQual pos test f &&
     (match mx with | none => true | some m => decide (m.end_ < f.1.end_))
  then some f.1 else mx

/-- findNodeBefore's inner c, with the shared max variable threaded through:
subtrees starting after pos are skipped, the max update happens before the
descent, and there is no early exit. -/
def findNodeBefore (B : BaseT) (pos : Int) (test : String → JNode → Bool) :
    Nat → Option JNode → JNode → Option String → Option (Option JNode)
  | 0, _, _, _ => none
  | fuel+1, mx, node, ov =>
    if node.start > pos then some mx
    else
      let ty := effType ov node
      let mx1 := beforeUpd pos test mx (node, ty)
      match B ty node with
      | none => none
      | some calls => kidsFold (fun m c o => findNodeBefore B pos test fuel m c o) mx1 calls

/-! Frame enumerations: for each search, the list of (node, effective type)
pairs the search applies its test (or max update) to, in that order, when no
early exit happens.  These are the specification-side companions of the
fuelled runs above. -/

/-- The test events of findNodeAt, in order (children first, the node
itself last; descent only under the covering condition). -/
def atFrames (B : BaseT) (start stop : Option Int) :
    Nat → JNode → Option String → Option (List (JNode × String))
  | 0, _, _ => none
  | fuel+1, node, ov =>
    let ty := effType ov node
    match (if nullOr start (fun s => decide (node.start ≤ s)) &&
              nullOr stop (fun e => decide (node.end_ ≥ e)) then
             match B ty node with
             | none => none
             | some calls => kidsConcat (atFrames B start stop fuel) calls
           else some []) with
    | none => none
    | some fs => some (fs ++ [(node, ty)])

/-- The test events of findNodeAround, in order (post-order, pruned to
subtrees whose interval contains pos). -/
def aroundFrames (B : BaseT) (pos : Int) :
    Nat → JNode → Option String → Option (List (JNode × String))
  | 0, _, _ => none
  | fuel+1, node, ov =>
    if node.start > pos ∨ node.end_ < pos then some []
    else
      let ty := effType ov node
      match B ty node with
      | none => none
      | some calls =>
        match kidsConcat (aroundFrames B pos fuel) calls with
        | none => none
        | some fs => some (fs ++ [(node, ty)])

/-- The test events of findNodeAfter, in order (pre-order, pruned to
subtrees ending at or after pos). -/
def afterFrames (B : BaseT) (pos : Int) :
    Nat → JNode → Option String → Option (List (JNode × String))
  | 0, _, _ => none
  | fuel+1, node, ov =>
    if node.end_ < pos then some []
    else
      let ty := effType ov node
      match B ty node with
      | none => none
      | some calls =>
        match kidsConcat (afterFrames B pos fuel) calls with
        | none => none
        | some fs => some ((node, ty) :: fs)

/-- The max-update events of findNodeBefore, in order (pre-order, pruned to
subtrees starting at or before pos). -/
def beforeFrames (B : BaseT) (pos : Int) :
    Nat → JNode → Option String → Option (List (JNode × String))
  | 0, _, _ => none
  | fuel+1, node, ov =>
    if node.start > pos then some []
    else
      let ty := effType ov node
      match B ty node with
      | none => none
      | some calls =>
        match kidsConcat (beforeFrames B pos fuel) calls with
        | none => none
        | some fs => some ((node, ty) :: fs)

/-! Registry derivation (make / create of the source). -/

/-- A walker table entry as the traversals consume it. -/
abbrev Entry := JNode → Option (List (JNode × Option String))

/-- A registry: a plain table, or a derived object whose prototype is
another registry (Object.create(base) with the overrides copied on top). -/
inductive Registry : Type where
  | table (entries : List (String × Entry))
  | derived (overrides : List (String × Entry)) (parent : Registry)

/-- Property lookup through the prototype chain: an own property wins,
otherwise the lookup falls through to the parent registry. -/
def Registry.lookup : Registry → String → Option Entry
  | .table es, ty => List.lookup ty es
  | .derived ov p, ty => (List.lookup ty ov).or (p.lookup ty)

/-- make(funcs, base): visitor = create(base); for (type in funcs)
visitor[type] = funcs[type].  The base object itself is never written. -/
def make (funcs : List (String × Entry)) (b : Registry) : Registry :=
  .derived funcs b

/-! The structural-descent relation used to reason about ancestor walks. -/

/-- c is stored in one of p's fields, directly or as an array element. -/
inductive ChildF : JNode → JNode → Prop where
  | val {c p : JNode} {name : String}
      (h : (name, JField.val c) ∈ p.fields) : ChildF c p
  | arr {c p : JNode} {name : String} {elems : List (Option JNode)}
      (h : (name, JField.arr elems) ∈ p.fields) (hc : some c ∈ elems) : ChildF c p

/-- c is a proper structural descendant of p. -/
def Desc : JNode → JNode → Prop := Relation.TransGen ChildF

/-- The descending orientation: b is a proper descendant of a. -/
def DescDown (a b : JNode) : Prop := Desc b a

/-! The node lifecycle manager (src/node.js of the parser): startNode,
startNodeAt, finishNode, finishNodeAt.  The options object carries the
locations, ranges and directSourceFile flags; the process-wide deprecation
configuration is ProcessFlags. -/

/-- A line/column position, as produced by the tokenizer. -/
structure LinePos : Type where
  line : Nat
  column : Nat
  deriving DecidableEq

/-- Modelled from the spec: the SourceLocation value object (its class lives
in src/location, which is not among the repository files).  Its constructor
records the given start position; the end is attached when the node is
finished. -/
structure SourceLocation : Type where
  start : Option LinePos
  end_ : Option LinePos
  deriving DecidableEq

structure Options : Type where
  locations : Bool
  ranges : Bool
  directSourceFile : Option String
  deriving DecidableEq

/-- An AST node under construction: every attribute is absent until the
lifecycle stamps it. -/
structure Node : Type where
  type : Option String := none
  start : Option Nat := none
  end_ : Option Nat := none
  loc : Option SourceLocation := none
  range : Option (Nat × Nat) := none
  sourceFile : Option String := none
  deriving DecidableEq

/-- The parser state the lifecycle reads: the options object plus the
current token positions. -/
structure Parser : Type where
  options : Options
  start : Nat
  startLoc : LinePos
  lastTokEnd : Nat
  lastTokEndLoc : LinePos

/-- The process-wide deprecation configuration (process.throwDeprecation and
process.traceDeprecation). -/
structure ProcessFlags : Type where
  throwDeprecation : Bool
  traceDeprecation : Bool
  deriving DecidableEq

/-- The pos argument of startNodeAt / finishNodeAt: a bare offset, or the
deprecated two-element array [offset, loc]. -/
inductive PosArg : Type where
  | num (n : Nat)
  | arr (p : Nat) (l : LinePos)
  deriving DecidableEq

def startNodeAtDeprMsg : String :=
  "acron.parser: Usage of startNodeAt(start) is deprecated. please invoke by startNodeAt(start, loc)."

def startNodeAtArrMsg : String :=
  "acron.parser: parameter 'pos' to member startNodeAt(pos, loc) is expected to be a number, array given."

def finishNodeAtDeprMsg : String :=
  "acron.parser: Usage of finishNodeAt(start) is deprecated. please invoke by finishNodeAt(start, loc)."

def finishNodeAtArrMsg : String :=
  "acron.parser: parameter 'pos' to member finishNodeAt(pos, loc) is expected to be a number, array given."

/-- pp.startNode. -/
def Parser.startNode (p : Parser) : Node :=
  { type := none
    start := some p.start
    end_ := none
    loc := if p.options.locations then some { start := some p.startLoc, end_ := none } else none
    range := if p.options.ranges then some (p.start, 0) else none
    sourceFile := p.options.directSourceFile }

/-- The tail of pp.startNodeAt shared by both calling conventions: stamps
start and conditionally loc, sourceFile and range from the flattened
arguments. -/
def Parser.startNodeAtCore (p : Parser) (pos : Nat) (loc : Option LinePos) : Node :=
  { type := none
    start := some pos
    end_ := none
    loc := if p.options.locations then some { start := loc, end_ := none } else none
    range := if p.options.ranges then some (pos, 0) else none
    sourceFile := p.options.directSourceFile }

/-- pp.startNodeAt.  The result pairs the built node with the deprecation
warnings the call printed (console.trace or console.error).  The warned
local of the source is initialised to false on every call, so the !warned
guard always passes and each deprecated call prints the message. -/
def Parser.startNodeAt (p : Parser) (flags : ProcessFlags) (pos : PosArg)
    (loc : Option LinePos) : Except String (Node × List String) :=
  match pos with
  | .num a => .ok (p.startNodeAtCore a loc, [])
  | .arr a l =>
    if p.options.locations = true ∧ loc = none then
      if flags.throwDeprecation then .error startNodeAtDeprMsg
      else .ok (p.startNodeAtCore a (some l), [startNodeAtDeprMsg])
    else .error startNodeAtArrMsg

/-- pp.finishNode: stamps type and end from the last token, closes loc.end
and range[1] when those features are on; writing through an absent loc or
range is the JavaScript TypeError. -/
def Parser.finishNode (p : Parser) (node : Node) (type : String) : Except String Node :=
  let n1 : Node := { node with type := some type, end_ := some p.lastTokEnd }
  match (if p.options.locations then
           match n1.loc with
           | none => none
           | some sl => some { n1 with loc := some { sl with end_ := some p.lastTokEndLoc } }
         else some n1) with
  | none => .error "TypeError: Cannot set property end of undefined"
  | some n2 =>
    match (if p.options.ranges then
             match n2.range with
             | none => none
             | some r => some { n2 with range := some (r.1, p.lastTokEnd) }
           else some n2) with
    | none => .error "TypeError: Cannot set property 1 of undefined"
    | some n3 => .ok n3

/-- The tail of pp.finishNodeAt shared by both calling conventions: stamps
type and end, closes loc.end and range[1] from the flattened arguments. -/
def Parser.finishNodeAtCore (p : Parser) (node : Node) (type : String) (pos : Nat)
    (loc : Option LinePos) : Except String Node :=
  let n1 : Node := { node with type := some type, end_ := some pos }
  match (if p.options.locations then
           match n1.loc with
           | none => none
           | some sl => some { n1 with loc := some { sl with end_ := loc } }
         else some n1) with
  | none => .error "TypeError: Cannot set property end of undefined"
  | some n2 =>
    match (if p.options.ranges then
             match n2.range with
             | none => none
             | some r => some { n2 with range := some (r.1, pos) }
           else some n2) with
  | none => .error "TypeError: Cannot set property 1 of undefined"
  | some n3 => .ok n3

/-- pp.finishNodeAt, with the same conventions as startNodeAt.  (The source
stamps node.type before inspecting pos; on the failing paths that partial
write is only visible through the caller's alias and is not modelled.) -/
def Parser.finishNodeAt (p : Parser) (flags : ProcessFlags) (node : Node) (type : String)
    (pos : PosArg) (loc : Option LinePos) : Except String (Node × List String) :=
  match pos with
  | .num a => (p.finishNodeAtCore node type a loc).map (fun n => (n, []))
  | .arr a l =>
    if p.options.locations = true ∧ loc = none then
      if flags.throwDeprecation then .error finishNodeAtDeprMsg
      else (p.finishNodeAtCore node type a (some l)).map (fun n => (n, [finishNodeAtDeprMsg]))
    else .error finishNodeAtArrMsg

/-! Concrete fixtures used by the witnesses. -/

/-- Fixture: f(g(x)) — the outer call spans [0,10], the inner [2,6]. -/
def identF : JNode := .mk "Identifier" 0 1 []
def identG : JNode := .mk "Identifier" 2 3 []
def identX : JNode := .mk "Identifier" 4 5 []
def callG : JNode :=
  .mk "CallExpression" 2 6 [("callee", .val identG), ("arguments", .arr [some identX])]
def callF : JNode :=
  .mk "CallExpression" 0 10 [("callee", .val identF), ("arguments", .arr [some callG])]

/-- Fixture: three sibling statements ending at 5, 12 and 20. -/
def stmtA : JNode := .mk "EmptyStatement" 0 5 []
def stmtB : JNode := .mk "EmptyStatement" 6 12 []
def stmtC : JNode := .mk "EmptyStatement" 13 20 []
def prog3 : JNode :=
  .mk "Program" 0 20 [("body", .arr [some stmtA, some stmtB, some stmtC])]

/-! Kids-level lemmas: how the early-exit search and the max fold relate to
the plain concatenating enumeration over the same child calls. -/

theorem kidsConcat_mem {E : Type} {rec : JNode → Option String → Option (List E)} :
    ∀ {calls : List (JNode × Option String)} {fs : List E},
      kidsConcat rec calls = some fs →
      ∀ e ∈ fs, ∃ c o cfs, (c, o) ∈ calls ∧ rec c o = some cfs ∧ e ∈ cfs := by
  intro calls
  induction calls with
  | nil => intro fs h e he; rw [kidsConcat] at h; injection h with h; subst h; simp at he
  | cons co rest ih =>
    obtain ⟨c, o⟩ := co
    intro fs h e he
    rw [kidsConcat] at h
    cases hc : rec c o with
    | none => rw [hc] at h; exact absurd h (by simp)
    | some cfs =>
      rw [hc] at h
      cases hr : kidsConcat rec rest with
      | none => rw [hr] at h; exact absurd h (by simp)
      | some rs =>
        rw [hr] at h
        injection h with h
        subst h
        rcases List.mem_append.mp he with hl | hr2
        · exact ⟨c, o, cfs, by simp, hc, hl⟩
        · obtain ⟨c2, o2, cfs2, hmem, hrec2, he2⟩ := ih hr e hr2
          exact ⟨c2, o2, cfs2, by simp [hmem], hrec2, he2⟩

theorem kidsSearch_of_concat (q : JNode × String → Bool)
    {recS : JNode → Option String → Option (Option JNode)}
    {recF : JNode → Option String → Option (List (JNode × String))}
    (hrec : ∀ c o cfs, recF c o = some cfs →
      recS c o = some ((cfs.find? q).map (fun f => f.1))) :
    ∀ calls fs, kidsConcat recF calls = some fs →
      kidsSearch recS calls = some ((fs.find? q).map (fun f => f.1)) := by
  intro calls
  induction calls with
  | nil =>
    intro fs h
    rw [kidsConcat] at h
    injection h with h; subst h
    rw [kidsSearch]; simp
  | cons co rest ih =>
    obtain ⟨c, o⟩ := co
    intro fs h
    rw [kidsConcat] at h
    cases hc : recF c o with
    | none => rw [hc] at h; exact absurd h (by simp)
    | some cfs =>
      rw [hc] at h
      cases hr : kidsConcat recF rest with
      | none => rw [hr] at h; exact absurd h (by simp)
      | some rs =>
        rw [hr] at h
        injection h with h
        subst h
        rw [kidsSearch, hrec c o cfs hc, List.find?_append]
        cases hF : cfs.find? q with
        | some f => simp [hF]
        | none => simp [hF, ih rs hr]

theorem kidsFold_of_concat (pos : Int) (test : String → JNode → Bool)
    {recS : Option JNode → JNode → Option String → Option (Option JNode)}
    {recF : JNode → Option String → Option (List (JNode × String))}
    (hrec : ∀ c o mx, recS mx c o
      = (recF c o).map (fun cfs => cfs.foldl (beforeUpd pos test) mx)) :
    ∀ calls mx, kidsFold recS mx calls
      = (kidsConcat recF calls).map (fun fs => fs.foldl (beforeUpd pos test) mx) := by
  intro calls
  induction calls with
  | nil => intro mx; rw [kidsFold, kidsConcat]; simp
  | cons co rest ih =>
    obtain ⟨c, o⟩ := co
    intro mx
    rw [kidsFold, kidsConcat, hrec c o mx]
    cases hc : recF c o with
    | none => simp
    | some cfs =>
      simp only [Option.map_some']
      rw [ih (cfs.foldl (beforeUpd pos test) mx)]
      cases hr : kidsConcat recF rest with
      | none => simp
      | some rs => simp [List.foldl_append]

/-! Refinement of the searches by their frame enumerations. -/

/-- findNodeAt is the first match of its test-event enumeration. -/
theorem findNodeAt_eq_frames (B : BaseT) (start stop : Option Int)
    (test : String → JNode → Bool) :
    ∀ (fuel : Nat) (node : JNode) (ov : Option String) (fs : List (JNode × String)),
      atFrames B start stop fuel node ov = some fs →
      findNodeAt B start stop test fuel node ov
        = some ((fs.find? (fun f => nullOr start (fun s => f.1.start == s) &&
            nullOr stop (fun e => f.1.end_ == e) && test f.2 f.1)).map (fun f => f.1)) := by
  intro fuel
  induction fuel with
  | zero => intro node ov fs h; rw [atFrames] at h; exact absurd h (by simp)
  | succ fuel ih =>
    intro node ov fs h
    rw [atFrames] at h
    rw [findNodeAt]
    by_cases hcov : (nullOr start (fun s => decide (node.start ≤ s)) &&
        nullOr stop (fun e => decide (node.end_ ≥ e))) = true
    · rw [if_pos hcov] at h ⊢
      cases hB : B (effType ov node) node with
      | none => rw [hB] at h; exact absurd h (by simp)
      | some calls =>
        rw [hB] at h
        simp only [] at h ⊢
        cases hK : kidsConcat (atFrames B start stop fuel) calls with
        | none => rw [hK] at h; exact absurd h (by simp)
        | some kfs =>
          rw [hK] at h
          injection h with h
          subst h
          rw [kidsSearch_of_concat _ (fun c o cfs hc => ih c o cfs hc) calls kfs hK,
            List.find?_append]
          cases hF : kfs.find? (fun f => nullOr start (fun s => f.1.start == s) &&
              nullOr stop (fun e => f.1.end_ == e) && test f.2 f.1) with
          | some f => simp [hF]
          | none =>
            by_cases hq : (nullOr start (fun s => node.start == s) &&
                nullOr stop (fun e => node.end_ == e) && test (effType ov node) node) = true
            · simp [hF, hq, List.find?_cons]
            · simp [hF, hq, List.find?_cons]
    · rw [if_neg hcov] at h ⊢
      injection h with h
      subst h
      by_cases hq : (nullOr start (fun s => node.start == s) &&
          nullOr stop (fun e => node.end_ == e) && test (effType ov node) node) = true
      · simp [hq, List.find?_cons]
      · simp [hq, List.find?_cons]

/-- findNodeAround is the first match of its pruned post-order test-event
enumeration. -/
theorem findNodeAround_eq_frames (B : BaseT) (pos : Int)
    (test : String → JNode → Bool) :
    ∀ (fuel : Nat) (node : JNode) (ov : Option String) (fs : List (JNode × String)),
      aroundFrames B pos fuel node ov = some fs →
      findNodeAround B pos test fuel node ov
        = some ((fs.find? (fun f => test f.2 f.1)).map (fun f => f.1)) := by
  intro fuel
  induction fuel with
  | zero => intro node ov fs h; rw [aroundFrames] at h; exact absurd h (by simp)
  | succ fuel ih =>
    intro node ov fs h
    rw [aroundFrames] at h
    rw [findNodeAround]
    by_cases hp : node.start > pos ∨ node.end_ < pos
    · rw [if_pos hp] at h ⊢
      injection h with h; subst h
      simp
    · rw [if_neg hp] at h ⊢
      simp only [] at h ⊢
      cases hB : B (effType ov node) node with
      | none => rw [hB] at h; exact absurd h (by simp)
      | some calls =>
        rw [hB] at h
        simp only [] at h ⊢
        cases hK : kidsConcat (aroundFrames B pos fuel) calls with
        | none => rw [hK] at h; exact absurd h (by simp)
        | some kfs =>
          rw [hK] at h
          injection h with h
          subst h
          rw [kidsSearch_of_concat _ (fun c o cfs hc => ih c o cfs hc) calls kfs hK,
            List.find?_append]
          cases hF : kfs.find? (fun f => test f.2 f.1) with
          | some f => simp [hF]
          | none =>
            by_cases hq : test (effType ov node) node = true
            · simp [hF, hq, List.find?_cons]
            · simp [hF, hq, List.find?_cons]

/-- findNodeAfter is the first match of its pruned pre-order test-event
enumeration. -/
theorem findNodeAfter_eq_frames (B : BaseT) (pos : Int)
    (test : String → JNode → Bool) :
    ∀ (fuel : Nat) (node : JNode) (ov : Option String) (fs : List (JNode × String)),
      afterFrames B pos fuel node ov = some fs →
      findNodeAfter B pos test fuel node ov
        = some ((fs.find? (fun f => decide (f.1.start ≥ pos) && test f.2 f.1)).map
            (fun f => f.1)) := by
  intro fuel
  induction fuel with
  | zero => intro node ov fs h; rw [afterFrames] at h; exact absurd h (by simp)
  | succ fuel ih =>
    intro node ov fs h
    rw [afterFrames] at h
    rw [findNodeAfter]
    by_cases hp : node.end_ < pos
    · rw [if_pos hp] at h ⊢
      injection h with h; subst h
      simp
    · rw [if_neg hp] at h ⊢
      simp only [] at h ⊢
      cases hB : B (effType ov node) node with
      | none => rw [hB] at h; exact absurd h (by simp)
      | some calls =>
        rw [hB] at h
        simp only [] at h ⊢
        cases hK : kidsConcat (afterFrames B pos fuel) calls with
        | none => rw [hK] at h; exact absurd h (by simp)
        | some kfs =>
          rw [hK] at h
          injection h with h
          subst h
          rw [List.find?_cons]
          by_cases hq : (decide (node.start ≥ pos) && test (effType ov node) node) = true
          · rw [if_pos hq]
            simp [hq]
          · rw [if_neg hq]
            rw [kidsSearch_of_concat _ (fun c o cfs hc => ih c o cfs hc) calls kfs hK]
            simp [hq]

/-- findNodeBefore is exactly the beforeUpd fold over its pruned pre-order
enumeration: it completes if and only if the full pruned traversal does, and
its result is a function of the entire visited-frame list. -/
theorem findNodeBefore_eq_frames (B : BaseT) (pos : Int)
    (test : String → JNode → Bool) :
    ∀ (fuel : Nat) (mx : Option JNode) (node : JNode) (ov : Option String),
      findNodeBefore B pos test fuel mx node ov
        = (beforeFrames B pos fuel node ov).map
            (fun fs => fs.foldl (beforeUpd pos test) mx) := by
  intro fuel
  induction fuel with
  | zero => intro mx node ov; rw [findNodeBefore, beforeFrames]; simp
  | succ fuel ih =>
    intro mx node ov
    rw [findNodeBefore, beforeFrames]
    by_cases hp : node.start > pos
    · rw [if_pos hp, if_pos hp]; simp
    · rw [if_neg hp, if_neg hp]
      simp only []
      cases hB : B (effType ov node) node with
      | none => simp
      | some calls =>
        simp only []
        rw [kidsFold_of_concat pos test (fun c o mx2 => ih mx2 c o) calls]
        cases hK : kidsConcat (beforeFrames B pos fuel) calls with
        | none => simp
        | some kfs => simp [List.foldl_cons]

/-! Pruning: which nodes the searches visit. -/

theorem aroundFrames_bounds (B : BaseT) (pos : Int) :
    ∀ (fuel : Nat) (node : JNode) (ov : Option String) (fs : List (JNode × String)),
      aroundFrames B pos fuel node ov = some fs →
      ∀ f ∈ fs, f.1.start ≤ pos ∧ pos ≤ f.1.end_ := by
  intro fuel
  induction fuel with
  | zero => intro node ov fs h; rw [aroundFrames] at h; exact absurd h (by simp)
  | succ fuel ih =>
    intro node ov fs h f hf
    rw [aroundFrames] at h
    by_cases hp : node.start > pos ∨ node.end_ < pos
    · rw [if_pos hp] at h
      injection h with h; subst h; simp at hf
    · rw [if_neg hp] at h
      simp only [] at h
      push_neg at hp
      cases hB : B (effType ov node) node with
      | none => rw [hB] at h; exact absurd h (by simp)
      | some calls =>
        rw [hB] at h
        simp only [] at h
        cases hK : kidsConcat (aroundFrames B pos fuel) calls with
        | none => rw [hK] at h; exact absurd h (by simp)
        | some kfs =>
          rw [hK] at h
          injection h with h; subst h
          rcases List.mem_append.mp hf with hin | hself
          · obtain ⟨c, o, cfs, _, hrec, hmem⟩ := kidsConcat_mem hK f hin
            exact ih c o cfs hrec f hmem
          · rcases List.mem_singleton.mp hself with rfl
            exact hp

theorem afterFrames_bounds (B : BaseT) (pos : Int) :
    ∀ (fuel : Nat) (node : JNode) (ov : Option String) (fs : List (JNode × String)),
      afterFrames B pos fuel node ov = some fs →
      ∀ f ∈ fs, pos ≤ f.1.end_ := by
  intro fuel
  induction fuel with
  | zero => intro node ov fs h; rw [afterFrames] at h; exact absurd h (by simp)
  | succ fuel ih =>
    intro node ov fs h f hf
    rw [afterFrames] at h
    by_cases hp : node.end_ < pos
    · rw [if_pos hp] at h
      injection h with h; subst h; simp at hf
    · rw [if_neg hp] at h
      simp only [] at h
      cases hB : B (effType ov node) node with
      | none => rw [hB] at h; exact absurd h (by simp)
      | some calls =>
        rw [hB] at h
        simp only [] at h
        cases hK : kidsConcat (afterFrames B pos fuel) calls with
        | none => rw [hK] at h; exact absurd h (by simp)
        | some kfs =>
          rw [hK] at h
          injection h with h; subst h
          rcases List.mem_cons.mp hf with rfl | hin
          · exact le_of_not_lt hp
          · obtain ⟨c, o, cfs, _, hrec, hmem⟩ := kidsConcat_mem hK f hin
            exact ih c o cfs hrec f hmem

theorem beforeFrames_bounds (B : BaseT) (pos : Int) :
    ∀ (fuel : Nat) (node : JNode) (ov : Option String) (fs : List (JNode × String)),
      beforeFrames B pos fuel node ov = some fs →
      ∀ f ∈ fs, f.1.start ≤ pos := by
  intro fuel
  induction fuel with
  | zero => intro node ov fs h; rw [beforeFrames] at h; exact absurd h (by simp)
  | succ fuel ih =>
    intro node ov fs h f hf
    rw [beforeFrames] at h
    by_cases hp : node.start > pos
    · rw [if_pos hp] at h
      injection h with h; subst h; simp at hf
    · rw [if_neg hp] at h
      simp only [] at h
      cases hB : B (effType ov node) node with
      | none => rw [hB] at h; exact absurd h (by simp)
      | some calls =>
        rw [hB] at h
        simp only [] at h
        cases hK : kidsConcat (beforeFrames B pos fuel) calls with
        | none => rw [hK] at h; exact absurd h (by simp)
        | some kfs =>
          rw [hK] at h
          injection h with h; subst h
          rcases List.mem_cons.mp hf with rfl | hin
          · exact le_of_not_lt hp
          · obtain ⟨c, o, cfs, _, hrec, hmem⟩ := kidsConcat_mem hK f hin
            exact ih c o cfs hrec f hmem

/-! The left fold of beforeUpd over a frame list: the running-best-match
semantics of findNodeBefore, characterised. -/

theorem beforeUpd_cases (pos : Int) (test : String → JNode → Bool)
    (mx : Option JNode) (f : JNode × String) :
    beforeUpd pos test mx f = mx ∨
      (beforeUpd pos test mx f = some f.1 ∧ beforeQual pos test f = true ∧
        ∀ e, mx = some e → e.end_ < f.1.end_) := by
  unfold beforeUpd
  split
  · next hcond =>
    right
    simp only [Bool.and_eq_true] at hcond
    refine ⟨rfl, hcond.1, ?_⟩
    intro e he
    subst he
    simpa using hcond.2
  · left; rfl

theorem beforeUpd_qual_some (pos : Int) (test : String → JNode → Bool)
    (mx : Option JNode) (f : JNode × String) (hq : beforeQual pos test f = true) :
    ∃ m, beforeUpd pos test mx f = some m ∧ f.1.end_ ≤ m.end_ := by
  unfold beforeUpd
  split
  · exact ⟨f.1, rfl, le_refl _⟩
  · next hcond =>
    cases mx with
    | none => simp [hq] at hcond
    | some m =>
      refine ⟨m, rfl, ?_⟩
      simp only [hq, Bool.true_and, decide_eq_true_eq] at hcond
      omega

theorem beforeUpd_mono (pos : Int) (test : String → JNode → Bool)
    (m0 : JNode) (f : JNode × String) :
    ∃ m, beforeUpd pos test (some m0) f = some m ∧ m0.end_ ≤ m.end_ := by
  unfold beforeUpd
  split
  · next hcond =>
    simp only [Bool.and_eq_true, decide_eq_true_eq] at hcond
    exact ⟨f.1, rfl, le_of_lt hcond.2⟩
  · exact ⟨m0, rfl, le_refl _⟩

theorem beforeFold_some_mono (pos : Int) (test : String → JNode → Bool) :
    ∀ (l : List (JNode × String)) (m0 : JNode),
      ∃ m, l.foldl (beforeUpd pos test) (some m0) = some m ∧ m0.end_ ≤ m.end_ := by
  intro l
  induction l with
  | nil => intro m0; exact ⟨m0, rfl, le_refl _⟩
  | cons f l ih =>
    intro m0
    obtain ⟨m1, hm1, hle1⟩ := beforeUpd_mono pos test m0 f
    obtain ⟨m, hm, hle⟩ := ih m1
    refine ⟨m, ?_, le_trans hle1 hle⟩
    rw [List.foldl_cons, hm1, hm]

theorem beforeFold_none_iff (pos : Int) (test : String → JNode → Bool) :
    ∀ (l : List (JNode × String)) (mx : Option JNode),
      l.foldl (beforeUpd pos test) mx = none ↔
        mx = none ∧ ∀ f ∈ l, beforeQual pos test f = false := by
  intro l
  induction l with
  | nil => intro mx; simp
  | cons f l ih =>
    intro mx
    rw [List.foldl_cons, ih]
    constructor
    · rintro ⟨h1, h2⟩
      have hmx : mx = none ∧ beforeQual pos test f = false := by
        rcases beforeUpd_cases pos test mx f with hc | ⟨hc, hq, _⟩
        · rw [hc] at h1
          subst h1
          cases hq : beforeQual pos test f with
          | false => exact ⟨rfl, rfl⟩
          | true =>
            obtain ⟨m, hm, _⟩ := beforeUpd_qual_some pos test none f hq
            rw [hm] at hc
            exact absurd hc (by simp)
        · rw [hc] at h1; exact absurd h1 (by simp)
      refine ⟨hmx.1, ?_⟩
      intro g hg
      rcases List.mem_cons.mp hg with rfl | hin
      · exact hmx.2
      · exact h2 g hin
    · rintro ⟨h1, h2⟩
      subst h1
      have hq : beforeQual pos test f = false := h2 f (by simp)
      refine ⟨?_, fun g hg => h2 g (by simp [hg])⟩
      unfold beforeUpd
      rw [hq]
      simp

theorem beforeFold_ub (pos : Int) (test : String → JNode → Bool) :
    ∀ (l : List (JNode × String)) (mx : Option JNode) (f : JNode × String),
      f ∈ l → beforeQual pos test f = true →
      ∀ m, l.foldl (beforeUpd pos test) mx = some m → f.1.end_ ≤ m.end_ := by
  intro l
  induction l with
  | nil => intro mx f hf; simp at hf
  | cons g l ih =>
    intro mx f hf hq m hm
    rw [List.foldl_cons] at hm
    rcases List.mem_cons.mp hf with rfl | hin
    · obtain ⟨m1, hm1, hle1⟩ := beforeUpd_qual_some pos test mx f hq
      rw [hm1] at hm
      obtain ⟨m2, hm2, hle2⟩ := beforeFold_some_mono pos test l m1
      rw [hm] at hm2
      injection hm2 with hm2
      subst hm2
      exact le_trans hle1 hle2
    · exact ih (beforeUpd pos test mx g) f hin hq m hm

theorem beforeFold_some_src (pos : Int) (test : String → JNode → Bool) :
    ∀ (l : List (JNode × String)) (mx : Option JNode) (m : JNode),
      l.foldl (beforeUpd pos test) mx = some m →
      mx = some m ∨ ∃ f ∈ l, beforeQual pos test f = true ∧ f.1 = m := by
  intro l
  induction l with
  | nil => intro mx m hm; left; exact hm
  | cons g l ih =>
    intro mx m hm
    rw [List.foldl_cons] at hm
    rcases ih (beforeUpd pos test mx g) m hm with h | ⟨f, hf, hq, hfm⟩
    · rcases beforeUpd_cases pos test mx g with hc | ⟨hc, hq, _⟩
      · rw [hc] at h; left; exact h
      · rw [hc] at h
        injection h with h
        right
        exact ⟨g, by simp, hq, h⟩
    · right
      exact ⟨f, by simp [hf], hq, hfm⟩

theorem beforeFold_last_writer (pos : Int) (test : String → JNode → Bool) :
    ∀ (l : List (JNode × String)) (mx : Option JNode) (m : JNode),
      l.foldl (beforeUpd pos test) mx = some m →
      (mx = some m ∧ ∀ f ∈ l, beforeQual pos test f = true → f.1.end_ ≤ m.end_) ∨
      (∃ l1 g l2, l = l1 ++ g :: l2 ∧ beforeQual pos test g = true ∧ g.1 = m ∧
        (∀ e, mx = some e → e.end_ < m.end_) ∧
        (∀ f ∈ l1, beforeQual pos test f = true → f.1.end_ < m.end_) ∧
        (∀ f ∈ l2, beforeQual pos test f = true → f.1.end_ ≤ m.end_)) := by
  intro l
  induction l with
  | nil => intro mx m hm; left; exact ⟨hm, by simp⟩
  | cons g l ih =>
    intro mx m hm
    rw [List.foldl_cons] at hm
    rcases ih (beforeUpd pos test mx g) m hm with ⟨h1, h2⟩ | ⟨l1, g2, l2, heq, hq2, hgm, hmx, h5, h6⟩
    · rcases beforeUpd_cases pos test mx g with hc | ⟨hc, hq, hlt⟩
      · rw [hc] at h1
        left
        refine ⟨h1, ?_⟩
        intro f hf hqf
        rcases List.mem_cons.mp hf with rfl | hin
        · obtain ⟨m1, hm1, hle1⟩ := beforeUpd_qual_some pos test mx f hqf
          rw [hc, h1] at hm1
          injection hm1 with hm1
          subst hm1
          exact hle1
        · exact h2 f hin hqf
      · rw [hc] at h1
        injection h1 with h1
        right
        refine ⟨[], g, l, by simp, hq, h1, ?_, by simp, h2⟩
        intro e he
        rw [h1] at hlt
        exact hlt e he
    · right
      refine ⟨g :: l1, g2, l2, by simp [heq], hq2, hgm, ?_, ?_, h6⟩
      · intro e he
        subst he
        obtain ⟨m1, hm1, hle1⟩ := beforeUpd_mono pos test e g
        exact lt_of_le_of_lt hle1 (hmx m1 hm1)
      · intro f hf hqf
        rcases List.mem_cons.mp hf with rfl | hin
        · obtain ⟨m1, hm1, hle1⟩ := beforeUpd_qual_some pos test mx f hqf
          exact lt_of_le_of_lt hle1 (hmx m1 hm1)
        · exact h5 f hin hqf

/-! Lemmas about simple and the full dispatch enumeration. -/

theorem kidsConcat_each {E : Type} {rec : JNode → Option String → Option (List E)} :
    ∀ {calls : List (JNode × Option String)} {fs : List E},
      kidsConcat rec calls = some fs →
      ∀ co ∈ calls, ∃ cfs, rec co.1 co.2 = some cfs ∧ ∀ x ∈ cfs, x ∈ fs := by
  intro calls
  induction calls with
  | nil => intro fs h co hco; simp at hco
  | cons c0 rest ih =>
    obtain ⟨c, o⟩ := c0
    intro fs h co hco
    rw [kidsConcat] at h
    cases hc : rec c o with
    | none => rw [hc] at h; exact absurd h (by simp)
    | some cfs =>
      rw [hc] at h
      cases hr : kidsConcat rec rest with
      | none => rw [hr] at h; exact absurd h (by simp)
      | some rs =>
        rw [hr] at h
        injection h with h; subst h
        rcases List.mem_cons.mp hco with rfl | hin
        · exact ⟨cfs, hc, fun x hx => List.mem_append.mpr (Or.inl hx)⟩
        · obtain ⟨cfs2, hrec2, hsub⟩ := ih hr co hin
          exact ⟨cfs2, hrec2, fun x hx => List.mem_append.mpr (Or.inr (hsub x hx))⟩

theorem kidsConcat_hom {E F : Type} (fn : List E → List F)
    (hnil : fn [] = []) (happ : ∀ a b, fn (a ++ b) = fn a ++ fn b)
    {recA : JNode → Option String → Option (List F)}
    {recB : JNode → Option String → Option (List E)}
    (hrec : ∀ c o, recA c o = (recB c o).map fn) :
    ∀ calls, kidsConcat recA calls = (kidsConcat recB calls).map fn := by
  intro calls
  induction calls with
  | nil => rw [kidsConcat, kidsConcat]; simp [hnil]
  | cons c0 rest ih =>
    obtain ⟨c, o⟩ := c0
    rw [kidsConcat, kidsConcat, hrec c o, ih]
    cases hc : recB c o with
    | none => simp
    | some cfs =>
      simp only [Option.map_some']
      cases hr : kidsConcat recB rest with
      | none => simp
      | some rs => simp [happ]

/-- The visitor-invocation list of simple is the all-visitors dispatch list
filtered by which types have a visitor: one callback per generated
(node, type) dispatch whose type is matched. -/
theorem simple_filter (B : BaseT) (vis : String → Bool) :
    ∀ (fuel : Nat) (node : JNode) (ov : Option String),
      simple B vis fuel node ov
        = (simple B (fun _ => true) fuel node ov).map
            (List.filter (fun e => vis e.2)) := by
  intro fuel
  induction fuel with
  | zero => intro node ov; rw [simple, simple]; simp
  | succ fuel ih =>
    intro node ov
    rw [simple, simple]
    simp only []
    cases hB : B (effType ov node) node with
    | none => simp
    | some calls =>
      simp only []
      rw [kidsConcat_hom (List.filter (fun e => vis e.2)) rfl
        (fun a b => List.filter_append a b) (fun c o => ih c o) calls]
      cases hK : kidsConcat (simple B (fun _ => true) fuel) calls with
      | none => simp
      | some kfs =>
        simp only [Option.map_some']
        by_cases hv : vis (effType ov node) = true
        · simp [hv, List.filter_append]
        · simp [hv, List.filter_append]

/-- In a completed simple run, a frame's own dispatch event is the last
event its subtree produces: the descent into the children finishes before
the node's own callback position. -/
theorem simple_getLast (B : BaseT) :
    ∀ (fuel : Nat) (node : JNode) (ov : Option String) (evs : List (JNode × String)),
      simple B (fun _ => true) fuel node ov = some evs →
      evs.getLast? = some (node, effType ov node) := by
  intro fuel node ov evs h
  cases fuel with
  | zero => rw [simple] at h; exact absurd h (by simp)
  | succ fuel =>
    rw [simple] at h
    simp only [] at h
    cases hB : B (effType ov node) node with
    | none => rw [hB] at h; exact absurd h (by simp)
    | some calls =>
      rw [hB] at h
      simp only [] at h
      cases hK : kidsConcat (simple B (fun _ => true) fuel) calls with
      | none => rw [hK] at h; exact absurd h (by simp)
      | some kfs =>
        rw [hK] at h
        injection h with h; subst h
        simp [List.getLast?_append]

/-! Well-formedness of a tree relative to the table driving the traversal:
the decidable check framesWF says that every dispatched node has
start <= end and that entries only dispatch children starting at or after
their parent (the child-containment invariant of the data model). -/

def framesWF (B : BaseT) (all : List (JNode × String)) : Bool :=
  all.all (fun f => decide (f.1.start ≤ f.1.end_) &&
    (match B f.2 f.1 with
     | none => true
     | some calls => calls.all (fun p => decide (f.1.start ≤ p.1.start))))

theorem framesWF_sub (B : BaseT) {all sub : List (JNode × String)}
    (hsub : ∀ f ∈ sub, f ∈ all) (h : framesWF B all = true) :
    framesWF B sub = true := by
  rw [framesWF, List.all_eq_true] at h ⊢
  exact fun f hf => h f (hsub f hf)

theorem framesWF_start_le (B : BaseT) {all : List (JNode × String)}
    (h : framesWF B all = true) {f : JNode × String} (hf : f ∈ all) :
    f.1.start ≤ f.1.end_ := by
  rw [framesWF, List.all_eq_true] at h
  have := h f hf
  simp only [Bool.and_eq_true, decide_eq_true_eq] at this
  exact this.1

theorem framesWF_call (B : BaseT) {all : List (JNode × String)}
    (h : framesWF B all = true) {f : JNode × String} (hf : f ∈ all)
    {calls : List (JNode × Option String)} (hc : B f.2 f.1 = some calls) :
    ∀ p ∈ calls, f.1.start ≤ p.1.start := by
  rw [framesWF, List.all_eq_true] at h
  have h2 := (h f hf)
  simp only [Bool.and_eq_true] at h2
  have h3 := h2.2
  rw [hc] at h3
  rw [List.all_eq_true] at h3
  intro p hp
  have := h3 p hp
  simpa using this

/-- In a well-formed run, every dispatched node starts at or after the root
of the run. -/
theorem simple_start_lb (B : BaseT) :
    ∀ (fuel : Nat) (node : JNode) (ov : Option String) (all : List (JNode × String)),
      simple B (fun _ => true) fuel node ov = some all →
      framesWF B all = true →
      ∀ f ∈ all, node.start ≤ f.1.start := by
  intro fuel
  induction fuel with
  | zero => intro node ov all h; rw [simple] at h; exact absurd h (by simp)
  | succ fuel ih =>
    intro node ov all h hWF f hf
    rw [simple] at h
    simp only [] at h
    cases hB : B (effType ov node) node with
    | none => rw [hB] at h; exact absurd h (by simp)
    | some calls =>
      rw [hB] at h
      simp only [] at h
      cases hK : kidsConcat (simple B (fun _ => true) fuel) calls with
      | none => rw [hK] at h; exact absurd h (by simp)
      | some kfs =>
        rw [hK] at h
        injection h with h; subst h
        have hself : ((node, effType ov node) : JNode × String)
            ∈ kfs ++ [(node, effType ov node)] := by simp
        rcases List.mem_append.mp hf with hin | hself2
        · obtain ⟨c, o, cfs, hmem, hrec, hcf⟩ := kidsConcat_mem hK f hin
          have h1 : node.start ≤ c.start := framesWF_call B hWF hself hB (c, o) hmem
          obtain ⟨cfs2, hrec2, hsub2⟩ := kidsConcat_each hK (c, o) hmem
          rw [hrec] at hrec2
          injection hrec2 with hrec2
          subst hrec2
          have hsub : framesWF B cfs = true := by
            refine framesWF_sub B ?_ hWF
            intro g hg
            exact List.mem_append.mpr (Or.inl (hsub2 g hg))
          exact le_trans h1 (ih c o cfs hrec hsub f hcf)
        · rcases List.mem_singleton.mp hself2 with rfl
          exact le_refl _

/-- In a well-formed run, every node of the whole dispatch enumeration that
qualifies for findNodeBefore is among findNodeBefore's visited frames: the
pruned subtrees (those starting after pos) contain no qualifying node. -/
theorem beforeFrames_complete (B : BaseT) (pos : Int) (test : String → JNode → Bool) :
    ∀ (fuel : Nat) (node : JNode) (ov : Option String) (all fs : List (JNode × String)),
      simple B (fun _ => true) fuel node ov = some all →
      beforeFrames B pos fuel node ov = some fs →
      framesWF B all = true →
      ∀ f ∈ all, beforeQual pos test f = true → f ∈ fs := by
  intro fuel
  induction fuel with
  | zero => intro node ov all fs h; rw [simple] at h; exact absurd h (by simp)
  | succ fuel ih =>
    intro node ov all fs hA hF hWF f hf hq
    have hlb := simple_start_lb B (fuel+1) node ov all hA hWF f hf
    have hse := framesWF_start_le B hWF hf
    rw [simple] at hA
    simp only [] at hA
    rw [beforeFrames] at hF
    by_cases hp : node.start > pos
    · exfalso
      rw [beforeQual, Bool.and_eq_true, decide_eq_true_eq] at hq
      omega
    · rw [if_neg hp] at hF
      simp only [] at hF
      cases hB : B (effType ov node) node with
      | none => rw [hB] at hA; exact absurd hA (by simp)
      | some calls =>
        rw [hB] at hA hF
        simp only [] at hA hF
        cases hKA : kidsConcat (simple B (fun _ => true) fuel) calls with
        | none => rw [hKA] at hA; exact absurd hA (by simp)
        | some kfsA =>
          rw [hKA] at hA
          injection hA with hA
          cases hKB : kidsConcat (beforeFrames B pos fuel) calls with
          | none => rw [hKB] at hF; exact absurd hF (by simp)
          | some kfsB =>
            rw [hKB] at hF
            injection hF with hF
            subst hA
            subst hF
            rcases List.mem_append.mp hf with hin | hself2
            · obtain ⟨c, o, cfsA, hmem, hrecA, hcf⟩ := kidsConcat_mem hKA f hin
              obtain ⟨cfsA2, hrecA2, hsubA⟩ := kidsConcat_each hKA (c, o) hmem
              rw [hrecA] at hrecA2
              injection hrecA2 with hrecA2
              subst hrecA2
              obtain ⟨cfsB, hrecB, hsubB⟩ := kidsConcat_each hKB (c, o) hmem
              have hsubWF : framesWF B cfsA = true := by
                refine framesWF_sub B ?_ hWF
                intro g hg
                exact List.mem_append.mpr (Or.inl (hsubA g hg))
              have hfin := ih c o cfsA cfsB hrecA hrecB hsubWF f hcf hq
              exact List.mem_cons.mpr (Or.inr (hsubB f hfin))
            · rcases List.mem_singleton.mp hself2 with rfl
              exact List.mem_cons.mpr (Or.inl rfl)

/-! Claim theorems for the find family and simple. -/

/-- C4: findNodeAround visits only frames whose interval contains pos
(descent only into subtrees containing pos); its result is the first
qualifying frame of the pruned post-order enumeration, in which a node's
descent precedes the node itself, so a deeper qualifying match is reported
before any enclosing one and the first reported match halts the search; when
no visited frame satisfies the test the result is the explicit absent
value. -/
theorem claim_C4_findNodeAround (B : BaseT) (pos : Int) (test : String → JNode → Bool)
    (fuel : Nat) (node : JNode) (ov : Option String) (fs : List (JNode × String))
    (hfs : aroundFrames B pos fuel node ov = some fs) :
    (∀ f ∈ fs, f.1.start ≤ pos ∧ pos ≤ f.1.end_) ∧
    findNodeAround B pos test fuel node ov
      = some ((fs.find? (fun f => test f.2 f.1)).map (fun f => f.1)) ∧
    ((∀ f ∈ fs, test f.2 f.1 = false) →
      findNodeAround B pos test fuel node ov = some none) ∧
    (∀ m, findNodeAround B pos test fuel node ov = some (some m) →
      ∃ pre g post, fs = pre ++ g :: post ∧ g.1 = m ∧ test g.2 g.1 = true ∧
        ∀ f ∈ pre, test f.2 f.1 = false) := by
  have hbounds := aroundFrames_bounds B pos fuel node ov fs hfs
  have heq := findNodeAround_eq_frames B pos test fuel node ov fs hfs
  refine ⟨hbounds, heq, ?_, ?_⟩
  · intro hall
    rw [heq]
    have hnone : fs.find? (fun f => test f.2 f.1) = none := by
      rw [List.find?_eq_none]
      intro x hx
      simp [hall x hx]
    simp [hnone]
  · intro m hm
    rw [heq] at hm
    injection hm with hm
    cases hF : fs.find? (fun f => test f.2 f.1) with
    | none => rw [hF] at hm; exact absurd hm (by simp)
    | some g =>
      rw [hF] at hm
      simp only [Option.map_some'] at hm
      injection hm with hm
      obtain ⟨hg, pre, post, hsplit, hpre⟩ := List.find?_eq_some.mp hF
      exact ⟨pre, g, post, hsplit, hm, hg, fun f hf => by simpa using hpre f hf⟩

/-- C5: findNodeAfter prunes exactly the subtrees ending before pos; it
tests a frame before descending, so its result is the first frame of the
pruned pre-order enumeration that starts at or after pos and satisfies the
test — the shallowest qualifying node, whose descent is never entered — and
the result is the explicit absent value when no frame qualifies. -/
theorem claim_C5_findNodeAfter (B : BaseT) (pos : Int) (test : String → JNode → Bool)
    (fuel : Nat) (node : JNode) (ov : Option String) (fs : List (JNode × String))
    (hfs : afterFrames B pos fuel node ov = some fs) :
    (∀ f ∈ fs, pos ≤ f.1.end_) ∧
    findNodeAfter B pos test fuel node ov
      = some ((fs.find? (fun f => decide (f.1.start ≥ pos) && test f.2 f.1)).map
          (fun f => f.1)) ∧
    ((∀ f ∈ fs, (decide (f.1.start ≥ pos) && test f.2 f.1) = false) →
      findNodeAfter B pos test fuel node ov = some none) ∧
    (∀ m, findNodeAfter B pos test fuel node ov = some (some m) →
      ∃ pre g post, fs = pre ++ g :: post ∧ g.1 = m ∧ pos ≤ g.1.start ∧
        test g.2 g.1 = true ∧
        ∀ f ∈ pre, (decide (f.1.start ≥ pos) && test f.2 f.1) = false) := by
  have hbounds := afterFrames_bounds B pos fuel node ov fs hfs
  have heq := findNodeAfter_eq_frames B pos test fuel node ov fs hfs
  refine ⟨hbounds, heq, ?_, ?_⟩
  · intro hall
    rw [heq]
    have hnone : fs.find? (fun f => decide (f.1.start ≥ pos) && test f.2 f.1) = none := by
      rw [List.find?_eq_none]
      intro x hx
      simp [hall x hx]
    simp [hnone]
  · intro m hm
    rw [heq] at hm
    injection hm with hm
    cases hF : fs.find? (fun f => decide (f.1.start ≥ pos) && test f.2 f.1) with
    | none => rw [hF] at hm; exact absurd hm (by simp)
    | some g =>
      rw [hF] at hm
      simp only [Option.map_some'] at hm
      injection hm with hm
      obtain ⟨hg, pre, post, hsplit, hpre⟩ := List.find?_eq_some.mp hF
      rw [Bool.and_eq_true, decide_eq_true_eq] at hg
      exact ⟨pre, g, post, hsplit, hm, hg.1, hg.2,
        fun f hf => by simpa only [Bool.not_eq_true'] using hpre f hf⟩

/-- C2 (amended): findNodeBefore never exits early on a match — its result
is the beforeUpd fold over the entire pruned visited-frame list, and it
completes exactly when that enumeration does.  It visits every frame except
those in subtrees starting after pos (each visited frame has start <= pos);
for a well-formed tree such pruned subtrees cannot contain a qualifying
node, so the returned match is a qualifying visited node whose end is
maximal among all qualifying nodes of the whole dispatch enumeration, and
the result is the explicit absent value exactly when no visited frame
qualifies. -/
theorem claim_C2_findNodeBefore_amended (B : BaseT) (pos : Int)
    (test : String → JNode → Bool) (fuel : Nat) (node : JNode) (ov : Option String)
    (all fs : List (JNode × String))
    (hall : simple B (fun _ => true) fuel node ov = some all)
    (hfs : beforeFrames B pos fuel node ov = some fs)
    (hwf : framesWF B all = true) :
    (∀ mx, findNodeBefore B pos test fuel mx node ov
      = some (fs.foldl (beforeUpd pos test) mx)) ∧
    (∀ f ∈ fs, f.1.start ≤ pos) ∧
    (findNodeBefore B pos test fuel none node ov = some none ↔
      ∀ f ∈ fs, beforeQual pos test f = false) ∧
    (∀ m, findNodeBefore B pos test fuel none node ov = some (some m) →
      (∃ f ∈ fs, beforeQual pos test f = true ∧ f.1 = m) ∧
      (∀ f ∈ all, beforeQual pos test f = true → f.1.end_ ≤ m.end_)) ∧
    (∀ f ∈ all, beforeQual pos test f = true →
      ∃ m, findNodeBefore B pos test fuel none node ov = some (some m) ∧
        f.1.end_ ≤ m.end_) := by
  have h1 : ∀ mx, findNodeBefore B pos test fuel mx node ov
      = some (fs.foldl (beforeUpd pos test) mx) := by
    intro mx
    rw [findNodeBefore_eq_frames B pos test fuel mx node ov, hfs]
    rfl
  refine ⟨h1, beforeFrames_bounds B pos fuel node ov fs hfs, ?_, ?_, ?_⟩
  · rw [h1 none]
    constructor
    · intro h
      injection h with h
      exact ((beforeFold_none_iff pos test fs none).mp h).2
    · intro h
      rw [((beforeFold_none_iff pos test fs none).mpr ⟨rfl, h⟩)]
  · intro m hm
    rw [h1 none] at hm
    injection hm with hm
    constructor
    · rcases beforeFold_some_src pos test fs none m hm with h | h
      · exact absurd h (by simp)
      · exact h
    · intro f hf hq
      have hmem := beforeFrames_complete B pos test fuel node ov all fs hall hfs hwf f hf hq
      exact beforeFold_ub pos test fs none f hmem hq m hm
  · intro f hf hq
    have hmem := beforeFrames_complete B pos test fuel node ov all fs hall hfs hwf f hf hq
    cases hr : fs.foldl (beforeUpd pos test) none with
    | none =>
      have := ((beforeFold_none_iff pos test fs none).mp hr).2 f hmem
      rw [hq] at this
      exact absurd this (by simp)
    | some m =>
      refine ⟨m, ?_, beforeFold_ub pos test fs none f hmem hq m hr⟩
      rw [h1 none, hr]

/-- C9: when findNodeBefore returns a match m, m is the node of the first
frame, in the pruned pre-order scan, whose end offset is maximal among
qualifying frames: every earlier qualifying frame ends strictly before m
(the running best is replaced only on a strictly greater end offset, so on a
tie the frame reached first — an enclosing node rather than its
equally-ending descendant — wins), and no later qualifying frame ends after
m. -/
theorem claim_C9_findNodeBefore_tiebreak (B : BaseT) (pos : Int)
    (test : String → JNode → Bool) (fuel : Nat) (node : JNode) (ov : Option String)
    (fs : List (JNode × String)) (m : JNode)
    (hfs : beforeFrames B pos fuel node ov = some fs)
    (hm : findNodeBefore B pos test fuel none node ov = some (some m)) :
    ∃ l1 g l2, fs = l1 ++ g :: l2 ∧ beforeQual pos test g = true ∧ g.1 = m ∧
      (∀ f ∈ l1, beforeQual pos test f = true → f.1.end_ < m.end_) ∧
      (∀ f ∈ l2, beforeQual pos test f = true → f.1.end_ ≤ m.end_) := by
  rw [findNodeBefore_eq_frames B pos test fuel none node ov, hfs] at hm
  simp only [Option.map_some'] at hm
  injection hm with hm
  rcases beforeFold_last_writer pos test fs none m hm with ⟨hbad, _⟩ | ⟨l1, g, l2, h⟩
  · exact absurd hbad (by simp)
  · exact ⟨l1, g, l2, h.1, h.2.1, h.2.2.1, h.2.2.2.2.1, h.2.2.2.2.2⟩

/-- C10: makeTest turns an absent test into one that accepts every visit and
a string test into one that accepts exactly the visits whose effective
dispatch type equals the string (a function test is used as given); the
effective dispatch type of a frame is the override category when the node
was dispatched under one and the node's concrete type when not, so the same
node is tested several times under different names — witnessed by an
EmptyStatement node whose frames are tested both as Statement and as
EmptyStatement, and found by findNodeAt under either name. -/
theorem claim_C10_makeTest :
    (∀ ty n, makeTest TestArg.noTest ty n = true) ∧
    (∀ (f : String → JNode → Bool) ty n, makeTest (TestArg.fn f) ty n = f ty n) ∧
    (∀ s ty n, makeTest (TestArg.str s) ty n = true ↔ ty = s) ∧
    (∀ n, effType none n = n.type) ∧
    (atFrames base none none 30 stmtA (some "Statement")
      = some [(stmtA, "EmptyStatement"), (stmtA, "Statement")]) ∧
    (findNodeAt base none none (makeTest (TestArg.str "Statement")) 30 prog3 none
      = some (some stmtA)) ∧
    (findNodeAt base none none (makeTest (TestArg.str "EmptyStatement")) 30 prog3 none
      = some (some stmtA)) ∧
    (findNodeAt base none none (makeTest TestArg.noTest) 30 prog3 none
      = some (some stmtA)) := by
  refine ⟨fun ty n => rfl, fun f ty n => rfl, ?_, fun n => rfl, rfl, rfl, rfl, rfl⟩
  intro s ty n
  rw [makeTest]
  exact beq_iff_eq

/-- C3: the visitor invocations of simple are exactly the generated
(node, effective type) dispatch pairings that have a matching visitor, one
invocation per generated pairing, in dispatch order (the filter equality);
and within every frame of a completed run the node's own pairing is the last
event its subtree produces, so the structural descent into the children is
complete before the node's own matched visitor fires. -/
theorem claim_C3_simple (B : BaseT) (vis : String → Bool) :
    (∀ fuel node ov, simple B vis fuel node ov
      = (simple B (fun _ => true) fuel node ov).map
          (List.filter (fun e => vis e.2))) ∧
    (∀ fuel node ov evs, simple B (fun _ => true) fuel node ov = some evs →
      evs.getLast? = some (node, effType ov node)) ∧
    (∀ fuel node ov evs, simple B vis fuel node ov = some evs →
      ∀ e ∈ evs, vis e.2 = true) := by
  refine ⟨simple_filter B vis, simple_getLast B, ?_⟩
  intro fuel node ov evs h e he
  rw [simple_filter B vis] at h
  cases hA : simple B (fun _ => true) fuel node ov with
  | none => rw [hA] at h; exact absurd h (by simp)
  | some all =>
    rw [hA] at h
    simp only [Option.map_some'] at h
    injection h with h
    subst h
    exact (List.mem_filter.mp he).2

/-! Witness fixtures and witnesses for the confirmed find-family claims. -/

def C4fs : List (JNode × String) :=
  [(identX, "Identifier"), (identX, "Expression"), (callG, "CallExpression"),
   (callG, "Expression"), (callF, "CallExpression")]

theorem claim_C4_witness :
    aroundFrames base 4 30 callF none = some C4fs ∧
    findNodeAround base 4 (makeTest (.str "CallExpression")) 30 callF none
      = some ((C4fs.find? (fun f => makeTest (.str "CallExpression") f.2 f.1)).map
          (fun f => f.1)) ∧
    findNodeAround base 4 (makeTest (.str "CallExpression")) 30 callF none
      = some (some callG) :=
  ⟨rfl, (claim_C4_findNodeAround base 4 (makeTest (.str "CallExpression"))
      30 callF none C4fs rfl).2.1, rfl⟩

def C5fs : List (JNode × String) :=
  [(prog3, "Program"), (stmtB, "Statement"), (stmtB, "EmptyStatement"),
   (stmtC, "Statement"), (stmtC, "EmptyStatement")]

theorem claim_C5_witness :
    afterFrames base 6 30 prog3 none = some C5fs ∧
    findNodeAfter base 6 (makeTest (.str "Statement")) 30 prog3 none
      = some ((C5fs.find? (fun f => decide (f.1.start ≥ 6) &&
          makeTest (.str "Statement") f.2 f.1)).map (fun f => f.1)) ∧
    findNodeAfter base 6 (makeTest (.str "Statement")) 30 prog3 none
      = some (some stmtB) :=
  ⟨rfl, (claim_C5_findNodeAfter base 6 (makeTest (.str "Statement"))
      30 prog3 none C5fs rfl).2.1, rfl⟩

def C3all : List (JNode × String) :=
  [(stmtA, "EmptyStatement"), (stmtA, "Statement"),
   (stmtB, "EmptyStatement"), (stmtB, "Statement"),
   (stmtC, "EmptyStatement"), (stmtC, "Statement"),
   (prog3, "Program")]

theorem claim_C3_witness :
    (simple base (fun ty => ty == "Statement") 30 prog3 none
      = (simple base (fun _ => true) 30 prog3 none).map
          (List.filter (fun e => (fun ty => ty == "Statement") e.2))) ∧
    simple base (fun _ => true) 30 prog3 none = some C3all ∧
    C3all.getLast? = some (prog3, "Program") ∧
    simple base (fun ty => ty == "Statement") 30 prog3 none
      = some [(stmtA, "Statement"), (stmtB, "Statement"), (stmtC, "Statement")] :=
  ⟨(claim_C3_simple base (fun ty => ty == "Statement")).1 30 prog3 none,
   rfl,
   (claim_C3_simple base (fun ty => ty == "Statement")).2.1 30 prog3 none C3all rfl,
   rfl⟩

/-- Fixture for the C2 counterexample: a sibling statement lying entirely
after the queried position. -/
def stmtL : JNode := .mk "EmptyStatement" 16 20 []
def prog2 : JNode :=
  .mk "Program" 0 20 [("body", .arr [some stmtA, some stmtL])]

/-- A frame projected to decidable data: concrete type, start offset,
effective dispatch type. -/
def frameKey (f : JNode × String) : String × Int × String :=
  (f.1.type, f.1.start, f.2)

/-- C2 counterexample: at pos = 6 on a well-formed two-statement program,
findNodeBefore completes but never visits the statement spanning [16,20]:
the (stmtL, Statement) dispatch occurs in the full traversal of the tree but
in none of findNodeBefore's visited frames, refuting "visits the entire
tree". -/
theorem claim_C2_counterexample :
    (simple base (fun _ => true) 30 prog2 none).map (List.map frameKey)
      = some [("EmptyStatement", 0, "EmptyStatement"), ("EmptyStatement", 0, "Statement"),
              ("EmptyStatement", 16, "EmptyStatement"), ("EmptyStatement", 16, "Statement"),
              ("Program", 0, "Program")] ∧
    (beforeFrames base 6 30 prog2 none).map (List.map frameKey)
      = some [("Program", 0, "Program"), ("EmptyStatement", 0, "Statement"),
              ("EmptyStatement", 0, "EmptyStatement")] ∧
    (("EmptyStatement", (16 : Int), "Statement")
      ∈ [("EmptyStatement", (0 : Int), "EmptyStatement"), ("EmptyStatement", 0, "Statement"),
         ("EmptyStatement", 16, "EmptyStatement"), ("EmptyStatement", 16, "Statement"),
         ("Program", 0, "Program")]) ∧
    (("EmptyStatement", (16 : Int), "Statement")
      ∉ [("Program", (0 : Int), "Program"), ("EmptyStatement", 0, "Statement"),
         ("EmptyStatement", 0, "EmptyStatement")]) ∧
    findNodeBefore base 6 (makeTest TestArg.noTest) 30 none prog2 none
      = some (some stmtA) :=
  ⟨rfl, rfl, by decide, by decide, rfl⟩

def C2fs : List (JNode × String) :=
  [(prog3, "Program"), (stmtA, "Statement"), (stmtA, "EmptyStatement"),
   (stmtB, "Statement"), (stmtB, "EmptyStatement"),
   (stmtC, "Statement"), (stmtC, "EmptyStatement")]

theorem claim_C2_witness :
    simple base (fun _ => true) 30 prog3 none = some C3all ∧
    beforeFrames base 15 30 prog3 none = some C2fs ∧
    framesWF base C3all = true ∧
    findNodeBefore base 15 (makeTest (.str "Statement")) 30 none prog3 none
      = some (C2fs.foldl (beforeUpd 15 (makeTest (.str "Statement"))) none) ∧
    findNodeBefore base 15 (makeTest (.str "Statement")) 30 none prog3 none
      = some (some stmtB) :=
  ⟨rfl, rfl, rfl,
   (claim_C2_findNodeBefore_amended base 15 (makeTest (.str "Statement"))
      30 prog3 none C3all C2fs rfl rfl rfl).1 none,
   rfl⟩

/-- Fixture for the C9 tie: an expression statement and its expression child
end at the same offset. -/
def identW : JNode := .mk "Identifier" 0 10 []
def exprSt : JNode :=
  .mk "ExpressionStatement" 0 10 [("expression", .val identW)]

def C9fs : List (JNode × String) :=
  [(exprSt, "ExpressionStatement"), (identW, "Expression"), (identW, "Identifier")]

theorem claim_C9_witness :
    beforeFrames base 10 30 exprSt none = some C9fs ∧
    findNodeBefore base 10 (makeTest TestArg.noTest) 30 none exprSt none
      = some (some exprSt) ∧
    (∃ l1 g l2, C9fs = l1 ++ g :: l2 ∧
      beforeQual 10 (makeTest TestArg.noTest) g = true ∧ g.1 = exprSt ∧
      (∀ f ∈ l1, beforeQual 10 (makeTest TestArg.noTest) f = true → f.1.end_ < exprSt.end_) ∧
      (∀ f ∈ l2, beforeQual 10 (makeTest TestArg.noTest) f = true → f.1.end_ ≤ exprSt.end_)) :=
  ⟨rfl, rfl,
   claim_C9_findNodeBefore_tiebreak base 10 (makeTest TestArg.noTest)
     30 exprSt none C9fs exprSt rfl rfl⟩

/-! The ancestor walk: the stack of ancestors is a strictly descending
chain of the dispatch path. -/

theorem childf_sizeOf_lt : ∀ {c p : JNode}, ChildF c p → sizeOf c < sizeOf p := by
  intro c p h
  obtain ⟨t, s, e, fs⟩ := p
  cases h with
  | val hmem =>
    simp only [JNode.fields] at hmem
    have h1 := List.sizeOf_lt_of_mem hmem
    simp only [Prod.mk.sizeOf_spec, JField.val.sizeOf_spec] at h1
    simp only [JNode.mk.sizeOf_spec]
    omega
  | arr hmem hc =>
    simp only [JNode.fields] at hmem
    have h1 := List.sizeOf_lt_of_mem hmem
    have h2 := List.sizeOf_lt_of_mem hc
    simp only [Prod.mk.sizeOf_spec, JField.arr.sizeOf_spec] at h1
    simp only [Option.some.sizeOf_spec] at h2
    simp only [JNode.mk.sizeOf_spec]
    omega

theorem desc_sizeOf_lt {c p : JNode} (h : Desc c p) : sizeOf c < sizeOf p := by
  induction h with
  | single h1 => exact childf_sizeOf_lt h1
  | tail _ h2 ih => exact lt_trans ih (childf_sizeOf_lt h2)

theorem Desc.irrefl (n : JNode) : ¬ Desc n n :=
  fun h => absurd (desc_sizeOf_lt h) (lt_irrefl _)

instance : IsTrans JNode DescDown :=
  ⟨fun _ _ _ hab hbc => Relation.TransGen.trans hbc hab⟩

instance : IsIrrefl JNode DescDown :=
  ⟨fun a h => Desc.irrefl a h⟩

theorem head?_append_of_ne_nil {γ : Type} (l1 l2 : List γ) (h : l1 ≠ []) :
    (l1 ++ l2).head? = l1.head? := by
  cases l1 with
  | nil => exact absurd rfl h
  | cons x xs => rfl

/-- The core invariant of the ancestor walk: whenever the walk was entered
with an ancestors array forming a strictly descending chain whose last
element (if any) is the current node or one of its proper ancestors, every
visitor invocation it produces sees a strictly descending chain ending at
the visited node, beginning where the walk began, and receives the
ancestors array as the effective state when none was supplied. -/
theorem ancestor_inv {α : Type} (B : BaseT) (vis : String → Bool) (st : Option α)
    (hstruct : ∀ ty n calls, B ty n = some calls → ∀ p ∈ calls, p.1 = n ∨ Desc p.1 n) :
    ∀ (fuel : Nat) (node : JNode) (ov : Option String) (anc : List JNode)
      (evs : List (AncEvent α)),
      List.Chain' DescDown anc →
      (∀ a, anc.getLast? = some a → node = a ∨ Desc node a) →
      ancestor B vis st fuel node ov anc = some evs →
      ∀ e ∈ evs,
        List.Chain' DescDown e.ancestors ∧
        e.ancestors.getLast? = some e.node ∧
        e.ancestors.head? = (anc ++ [node]).head? ∧
        e.eff = effState st e.ancestors := by
  intro fuel
  induction fuel with
  | zero =>
    intro node ov anc evs _ _ h
    rw [ancestor.eq_def] at h
    exact absurd h (by simp)
  | succ fuel ih =>
    intro node ov anc evs hchain hlast h
    rw [ancestor.eq_def] at h
    simp only [] at h
    by_cases hnew : anc.getLast? = some node
    · rw [if_pos hnew] at h
      have hne : anc ≠ [] := by
        intro hnil; rw [hnil] at hnew; exact absurd hnew (by simp)
      have hhead1 : anc.head? = (anc ++ [node]).head? :=
        (head?_append_of_ne_nil anc [node] hne).symm
      cases hB : B (effType ov node) node with
      | none => rw [hB] at h; exact absurd h (by simp)
      | some calls =>
        rw [hB] at h
        simp only [] at h
        cases hK : kidsConcat (fun c o => ancestor B vis st fuel c o anc) calls with
        | none => rw [hK] at h; exact absurd h (by simp)
        | some kevs =>
          rw [hK] at h
          injection h with h
          subst h
          intro e he
          rcases List.mem_append.mp he with hin | hself
          · obtain ⟨c, o, cevs, hmem, hrec, hce⟩ := kidsConcat_mem hK e hin
            have hclast : ∀ a, anc.getLast? = some a → c = a ∨ Desc c a := by
              intro a ha
              rw [hnew] at ha
              injection ha with ha
              subst ha
              exact hstruct (effType ov node) node calls hB (c, o) hmem
            have hres := ih c o anc cevs hchain hclast hrec e hce
            refine ⟨hres.1, hres.2.1, ?_, hres.2.2.2⟩
            rw [hres.2.2.1, head?_append_of_ne_nil anc [c] hne,
              head?_append_of_ne_nil anc [node] hne]
          · have he2 : e = ⟨node, effType ov node, anc, effState st anc⟩ := by
              by_cases hv : vis (effType ov node) = true
              · rw [if_pos hv] at hself
                exact List.mem_singleton.mp hself
              · rw [if_neg hv] at hself
                exact absurd hself (by simp)
            rw [he2]
            exact ⟨hchain, hnew, hhead1, rfl⟩
    · rw [if_neg hnew] at h
      have hchain1 : List.Chain' DescDown (anc ++ [node]) := by
        rw [List.chain'_append]
        refine ⟨hchain, List.chain'_singleton node, ?_⟩
        intro x hx y hy
        rcases hlast x hx with rfl | hd
        · exact absurd hx hnew
        · simp only [List.head?_cons, Option.mem_def, Option.some.injEq] at hy
          subst hy
          exact hd
      have hlast1 : (anc ++ [node]).getLast? = some node := by
        simp [List.getLast?_append]
      have hne1 : anc ++ [node] ≠ [] := by simp
      cases hB : B (effType ov node) node with
      | none => rw [hB] at h; exact absurd h (by simp)
      | some calls =>
        rw [hB] at h
        simp only [] at h
        cases hK : kidsConcat (fun c o => ancestor B vis st fuel c o (anc ++ [node])) calls with
        | none => rw [hK] at h; exact absurd h (by simp)
        | some kevs =>
          rw [hK] at h
          injection h with h
          subst h
          intro e he
          rcases List.mem_append.mp he with hin | hself
          · obtain ⟨c, o, cevs, hmem, hrec, hce⟩ := kidsConcat_mem hK e hin
            have hclast : ∀ a, (anc ++ [node]).getLast? = some a → c = a ∨ Desc c a := by
              intro a ha
              rw [hlast1] at ha
              injection ha with ha
              subst ha
              exact hstruct (effType ov node) node calls hB (c, o) hmem
            have hres := ih c o (anc ++ [node]) cevs hchain1 hclast hrec e hce
            refine ⟨hres.1, hres.2.1, ?_, hres.2.2.2⟩
            rw [hres.2.2.1, head?_append_of_ne_nil (anc ++ [node]) [c] hne1]
          · have he2 : e = ⟨node, effType ov node, anc ++ [node],
                effState st (anc ++ [node])⟩ := by
              by_cases hv : vis (effType ov node) = true
              · rw [if_pos hv] at hself
                exact List.mem_singleton.mp hself
              · rw [if_neg hv] at hself
                exact absurd hself (by simp)
            rw [he2]
            exact ⟨hchain1, hlast1, rfl, rfl⟩

/-- C6: during an ancestor walk over a structurally descending table, at the
moment the matched visitor for a node N fires, the ancestors sequence is
nonempty, ends at N, begins at the walk's root, forms a strictly descending
chain of proper structural descendants (so its length is N's depth in the
dispatch tree, the root having depth 1), is duplicate-free even when a node
is re-dispatched under an override category, and is also what the visitor
receives as its effective state argument when no separate state was
supplied. -/
theorem claim_C6_ancestor {α : Type} (B : BaseT) (vis : String → Bool) (st : Option α)
    (fuel : Nat) (node : JNode) (ov : Option String) (evs : List (AncEvent α))
    (hstruct : ∀ ty n calls, B ty n = some calls → ∀ p ∈ calls, p.1 = n ∨ Desc p.1 n)
    (hrun : ancestor B vis st fuel node ov [] = some evs) :
    ∀ e ∈ evs,
      e.ancestors ≠ [] ∧
      e.ancestors.getLast? = some e.node ∧
      e.ancestors.head? = some node ∧
      List.Chain' DescDown e.ancestors ∧
      e.ancestors.Nodup ∧
      (st = none → e.eff = Sum.inr e.ancestors) := by
  intro e he
  obtain ⟨hchain, hlast, hhead, heff⟩ := ancestor_inv B vis st hstruct fuel node ov [] evs
    List.chain'_nil (by simp) hrun e he
  have hne : e.ancestors ≠ [] := by
    intro hnil; rw [hnil] at hlast; exact absurd hlast (by simp)
  have hnodup : e.ancestors.Nodup :=
    (List.chain'_iff_pairwise.mp hchain).nodup
  refine ⟨hne, hlast, by simpa using hhead, hchain, hnodup, ?_⟩
  intro hst
  rw [hst] at heff
  exact heff

/-- A walker table that dispatches exactly the single-node fields of each
node, in field order, with no override category: structurally descending by
construction. -/
def structBase : BaseT := fun _ n =>
  some ((n.fields.filterMap (fun p => match p.2 with
    | JField.val c => some c
    | _ => none)).map (fun c => (c, (none : Option String))))

theorem structBase_structural :
    ∀ ty n calls, structBase ty n = some calls → ∀ p ∈ calls, p.1 = n ∨ Desc p.1 n := by
  intro ty n calls h p hp
  rw [structBase] at h
  injection h with h
  subst h
  right
  obtain ⟨c, hc, rfl⟩ := List.mem_map.mp hp
  obtain ⟨pair, hpair, hmatch⟩ := List.mem_filterMap.mp hc
  refine Relation.TransGen.single ?_
  obtain ⟨name, f⟩ := pair
  cases f with
  | val c2 =>
    simp only [Option.some.injEq] at hmatch
    subst hmatch
    exact ChildF.val hpair
  | arr elems => simp at hmatch
  | flag b => simp at hmatch

def ancKid : JNode := .mk "Kid" 2 5 []
def ancParent : JNode := .mk "Parent" 0 10 [("body", .val ancKid)]

theorem ancParent_ne_ancKid : ¬ (ancParent = ancKid) := by
  intro h
  rw [ancParent, ancKid] at h
  injection h with h1 h2 h3 h4
  exact absurd h1 (by decide)

theorem claim_C6_witness :
    ancestor structBase (fun _ => true) (none : Option Nat) 3 ancParent none []
      = some [⟨ancKid, "Kid", [ancParent, ancKid], Sum.inr [ancParent, ancKid]⟩,
              ⟨ancParent, "Parent", [ancParent], Sum.inr [ancParent]⟩] ∧
    ([ancParent, ancKid] ≠ []) ∧
    ([ancParent, ancKid].getLast? = some ancKid) ∧
    ([ancParent, ancKid].head? = some ancParent) ∧
    List.Chain' DescDown [ancParent, ancKid] ∧
    [ancParent, ancKid].Nodup ∧
    ((none : Option Nat) = none →
      Sum.inr ([ancParent, ancKid]) = (Sum.inr [ancParent, ancKid] : Sum Nat (List JNode))) := by
  have hcond1 : (List.getLast? ([] : List JNode) = some ancParent) = False := by simp
  have hcond2 : (List.getLast? [ancParent] = some ancKid) = False := by
    simp [ancParent_ne_ancKid]
  have htyP : ancParent.type = "Parent" := rfl
  have htyK : ancKid.type = "Kid" := rfl
  have hfP : ancParent.fields = [("body", JField.val ancKid)] := rfl
  have hfK : ancKid.fields = [] := rfl
  have hrun : ancestor structBase (fun _ => true) (none : Option Nat) 3 ancParent none []
      = some [⟨ancKid, "Kid", [ancParent, ancKid], Sum.inr [ancParent, ancKid]⟩,
              ⟨ancParent, "Parent", [ancParent], Sum.inr [ancParent]⟩] := by
    rw [ancestor.eq_def]
    simp only [hcond1, if_false, effType, htyP, structBase, hfP, List.filterMap,
      List.map, kidsConcat]
    rw [ancestor.eq_def]
    simp only [effType, htyK, structBase, hfK, List.filterMap, List.map, kidsConcat]
    simp [ancParent_ne_ancKid, effState]
  have hmain := claim_C6_ancestor structBase (fun _ => true) (none : Option Nat)
    3 ancParent none _ structBase_structural hrun
    ⟨ancKid, "Kid", [ancParent, ancKid], Sum.inr [ancParent, ancKid]⟩ (by simp)
  exact ⟨hrun, hmain.1, hmain.2.1, hmain.2.2.1, hmain.2.2.2.1, hmain.2.2.2.2.1,
    fun _ => rfl⟩

/-! Registry derivation. -/

/-- Stacking derived layers looks up through them in order: the lookup of a
multi-level derivation is the first hit in the concatenated override layers,
falling back to the base registry. -/
theorem registry_layers (b : Registry) :
    ∀ (layers : List (List (String × Entry))) (ty : String),
      (layers.foldr make b).lookup ty
        = (List.lookup ty layers.flatten).or (b.lookup ty) := by
  intro layers
  induction layers with
  | nil => intro ty; rfl
  | cons l rest ih =>
    intro ty
    show (List.lookup ty l).or ((rest.foldr make b).lookup ty) = _
    rw [ih ty, List.flatten_cons, List.lookup_append, Option.or_assoc]

/-- C7: the registry returned by make answers with the override entry for
every type present in the overrides, transparently falls through to the
base's entry (category entries included, since lookup is uniform in the type
name) for every other type, leaves the base registry embedded unchanged
rather than copied or mutated, and composes: deriving from an
already-derived registry gives first-hit lookup through the layered
overrides with multi-level fallback to the base. -/
theorem claim_C7_make (funcs : List (String × Entry)) (b : Registry) (ty : String) :
    (∀ e, List.lookup ty funcs = some e → (make funcs b).lookup ty = some e) ∧
    (List.lookup ty funcs = none → (make funcs b).lookup ty = b.lookup ty) ∧
    (∀ layers : List (List (String × Entry)),
      (layers.foldr make b).lookup ty
        = (List.lookup ty layers.flatten).or (b.lookup ty)) := by
  refine ⟨?_, ?_, fun layers => registry_layers b layers ty⟩
  · intro e he
    show (List.lookup ty funcs).or (b.lookup ty) = some e
    rw [he]
    rfl
  · intro he
    show (List.lookup ty funcs).or (b.lookup ty) = b.lookup ty
    rw [he]
    rfl

def entryA : Entry := fun _ => some []
def entryB : Entry := fun n => some [(n, none)]
def regBase : Registry := .table [("Statement", entryB), ("Expression", entryB)]

theorem claim_C7_witness :
    List.lookup "Statement" [("Statement", entryA)] = some entryA ∧
    (make [("Statement", entryA)] regBase).lookup "Statement" = some entryA ∧
    List.lookup "Expression" [("Statement", entryA)] = none ∧
    (make [("Statement", entryA)] regBase).lookup "Expression"
      = regBase.lookup "Expression" ∧
    (([[("Statement", entryA)], [("Expression", entryB)]].foldr make regBase).lookup
        "Expression"
      = (List.lookup "Expression"
          ([[("Statement", entryA)], [("Expression", entryB)]].flatten)).or
          (regBase.lookup "Expression")) :=
  ⟨rfl,
   (claim_C7_make [("Statement", entryA)] regBase "Statement").1 entryA rfl,
   rfl,
   (claim_C7_make [("Statement", entryA)] regBase "Expression").2.1 rfl,
   (claim_C7_make [("Statement", entryA)] regBase "Expression").2.2
     [[("Statement", entryA)], [("Expression", entryB)]]⟩

/-! The node lifecycle claims. -/

/-- C8: a node opened by startNode and closed by finishNode with the
locations and ranges options enabled has range[0] equal to its start,
range[1] equal to its end, and a loc whose start and end positions are both
set. -/
theorem claim_C8_roundtrip (p : Parser) (ty : String)
    (hl : p.options.locations = true) (hr : p.options.ranges = true) :
    p.finishNode (p.startNode) ty = Except.ok
      { type := some ty, start := some p.start, end_ := some p.lastTokEnd,
        loc := some { start := some p.startLoc, end_ := some p.lastTokEndLoc },
        range := some (p.start, p.lastTokEnd),
        sourceFile := p.options.directSourceFile } ∧
    (∀ m : Node, p.finishNode (p.startNode) ty = Except.ok m →
      ∃ a b, m.start = some a ∧ m.end_ = some b ∧ m.range = some (a, b) ∧
        ∃ sl, m.loc = some sl ∧ sl.start.isSome = true ∧ sl.end_.isSome = true) := by
  have h1 : p.finishNode (p.startNode) ty = Except.ok
      { type := some ty, start := some p.start, end_ := some p.lastTokEnd,
        loc := some { start := some p.startLoc, end_ := some p.lastTokEndLoc },
        range := some (p.start, p.lastTokEnd),
        sourceFile := p.options.directSourceFile } := by
    simp [Parser.finishNode, Parser.startNode, hl, hr]
  refine ⟨h1, ?_⟩
  intro m hm
  rw [h1] at hm
  injection hm with hm
  subst hm
  exact ⟨p.start, p.lastTokEnd, rfl, rfl, rfl, ⟨_, rfl, rfl, rfl⟩⟩

def pLoc : Parser :=
  { options := { locations := true, ranges := true, directSourceFile := none },
    start := 3, startLoc := ⟨1, 3⟩, lastTokEnd := 9, lastTokEndLoc := ⟨1, 9⟩ }

theorem claim_C8_witness :
    pLoc.options.locations = true ∧ pLoc.options.ranges = true ∧
    pLoc.finishNode (pLoc.startNode) "BlockStatement" = Except.ok
      { type := some "BlockStatement", start := some 3, end_ := some 9,
        loc := some { start := some ⟨1, 3⟩, end_ := some ⟨1, 9⟩ },
        range := some (3, 9), sourceFile := none } :=
  ⟨rfl, rfl, (claim_C8_roundtrip pLoc "BlockStatement" rfl rfl).1⟩

/-- C1 (amended): a deprecated two-element-array position argument to
startNodeAt or finishNodeAt succeeds only when the locations option is on
and no explicit location argument was also given; in that case, under the
non-strict process configuration, the call builds exactly the node of the
corresponding bare-offset-plus-location call and prints the deprecation
message on every such call (the once-per-call warned local never suppresses
it), while under throwDeprecation the same call raises instead; with the
locations option off, or with an explicit location alongside the array, the
call raises the array-argument error under every configuration. -/
theorem claim_C1_deprecated_amended (p : Parser) (flags : ProcessFlags)
    (a : Nat) (l : LinePos) (node : Node) (ty : String) :
    (p.options.locations = true → flags.throwDeprecation = false →
      p.startNodeAt flags (PosArg.arr a l) none
        = Except.ok (p.startNodeAtCore a (some l), [startNodeAtDeprMsg]) ∧
      p.startNodeAt flags (PosArg.num a) (some l)
        = Except.ok (p.startNodeAtCore a (some l), []) ∧
      p.finishNodeAt flags node ty (PosArg.arr a l) none
        = (p.finishNodeAtCore node ty a (some l)).map
            (fun n => (n, [finishNodeAtDeprMsg])) ∧
      p.finishNodeAt flags node ty (PosArg.num a) (some l)
        = (p.finishNodeAtCore node ty a (some l)).map (fun n => (n, []))) ∧
    (p.options.locations = true → flags.throwDeprecation = true →
      p.startNodeAt flags (PosArg.arr a l) none = Except.error startNodeAtDeprMsg ∧
      p.finishNodeAt flags node ty (PosArg.arr a l) none
        = Except.error finishNodeAtDeprMsg) ∧
    (p.options.locations = false →
      p.startNodeAt flags (PosArg.arr a l) none = Except.error startNodeAtArrMsg ∧
      p.finishNodeAt flags node ty (PosArg.arr a l) none
        = Except.error finishNodeAtArrMsg) ∧
    (∀ l2, p.startNodeAt flags (PosArg.arr a l) (some l2)
        = Except.error startNodeAtArrMsg ∧
      p.finishNodeAt flags node ty (PosArg.arr a l) (some l2)
        = Except.error finishNodeAtArrMsg) := by
  refine ⟨?_, ?_, ?_, ?_⟩
  · intro hl ht
    refine ⟨?_, rfl, ?_, rfl⟩
    · rw [Parser.startNodeAt]
      try simp only []
      rw [if_pos (by simp [hl]), if_neg (by simp [ht])]
    · rw [Parser.finishNodeAt]
      try simp only []
      rw [if_pos (by simp [hl]), if_neg (by simp [ht])]
  · intro hl ht
    constructor
    · rw [Parser.startNodeAt]
      try simp only []
      rw [if_pos (by simp [hl]), if_pos ht]
    · rw [Parser.finishNodeAt]
      try simp only []
      rw [if_pos (by simp [hl]), if_pos ht]
  · intro hl
    constructor
    · rw [Parser.startNodeAt]
      try simp only []
      rw [if_neg (by simp [hl])]
    · rw [Parser.finishNodeAt]
      try simp only []
      rw [if_neg (by simp [hl])]
  · intro l2
    constructor
    · rw [Parser.startNodeAt]
      try simp only []
      rw [if_neg (by simp)]
    · rw [Parser.finishNodeAt]
      try simp only []
      rw [if_neg (by simp)]

def pNoLoc : Parser :=
  { options := { locations := false, ranges := false, directSourceFile := none },
    start := 0, startLoc := ⟨1, 0⟩, lastTokEnd := 0, lastTokEndLoc := ⟨1, 0⟩ }

def flagsDefault : ProcessFlags :=
  { throwDeprecation := false, traceDeprecation := false }

/-- C1 counterexample: under the default non-strict process configuration, a
two-element-array call to startNodeAt fails outright when the locations
option is off (the claim says every such call succeeds and is equivalent to
the flattened call), and with locations on, each of two distinct deprecated
calls made in the same process prints the deprecation message (the claim
says the warning is emitted at most once per process: the warned flag is a
local initialised afresh on every call). -/
theorem claim_C1_counterexample :
    pNoLoc.startNodeAt flagsDefault (PosArg.arr 3 ⟨1, 3⟩) none
      = Except.error startNodeAtArrMsg ∧
    pLoc.startNodeAt flagsDefault (PosArg.arr 3 ⟨1, 3⟩) none
      = Except.ok (pLoc.startNodeAtCore 3 (some ⟨1, 3⟩), [startNodeAtDeprMsg]) ∧
    pLoc.startNodeAt flagsDefault (PosArg.arr 5 ⟨2, 1⟩) none
      = Except.ok (pLoc.startNodeAtCore 5 (some ⟨2, 1⟩), [startNodeAtDeprMsg]) :=
  ⟨rfl, rfl, rfl⟩

theorem claim_C1_witness :
    pLoc.options.locations = true ∧ flagsDefault.throwDeprecation = false ∧
    pLoc.startNodeAt flagsDefault (PosArg.arr 3 ⟨1, 3⟩) none
      = Except.ok (pLoc.startNodeAtCore 3 (some ⟨1, 3⟩), [startNodeAtDeprMsg]) ∧
    pLoc.startNodeAt flagsDefault (PosArg.num 3) (some ⟨1, 3⟩)
      = Except.ok (pLoc.startNodeAtCore 3 (some ⟨1, 3⟩), []) ∧
    pNoLoc.options.locations = false ∧
    pNoLoc.startNodeAt flagsDefault (PosArg.arr 3 ⟨1, 3⟩) none
      = Except.error startNodeAtArrMsg ∧
    pLoc.startNodeAt flagsDefault (PosArg.arr 3 ⟨1, 3⟩) (some ⟨1, 4⟩)
      = Except.error startNodeAtArrMsg ∧
    pLoc.finishNodeAt flagsDefault {} "X" (PosArg.arr 3 ⟨1, 3⟩) (some ⟨1, 4⟩)
      = Except.error finishNodeAtArrMsg :=
  ⟨rfl, rfl,
   ((claim_C1_deprecated_amended pLoc flagsDefault 3 ⟨1, 3⟩ {} "X").1 rfl rfl).1,
   ((claim_C1_deprecated_amended pLoc flagsDefault 3 ⟨1, 3⟩ {} "X").1 rfl rfl).2.1,
   rfl,
   ((claim_C1_deprecated_amended pNoLoc flagsDefault 3 ⟨1, 3⟩ {} "X").2.2.1 rfl).1,
   ((claim_C1_deprecated_amended pLoc flagsDefault 3 ⟨1, 3⟩ {} "X").2.2.2 ⟨1, 4⟩).1,
   ((claim_C1_deprecated_amended pLoc flagsDefault 3 ⟨1, 3⟩ {} "X").2.2.2 ⟨1, 4⟩).2⟩

end Acorn
